import Mathlib

/-!
Verification development for metashell's trace-to-graph core:
the `forward_trace_iterator` (forward_trace_iterator.cpp) and the
`metaprogram_builder` (metaprogram_builder.hpp).

The iterator is embedded directly from the source of
`forward_trace_iterator.cpp`.  The metaprogram graph object
(`data::metaprogram`) and the builder's implementation file are not part
of the provided sources, so those parts are modelled from the
specification, as marked on each definition.
-/

namespace Metashell

/-- Traversal mode of a metaprogram graph: `full` preserves the exact call
stack shape, `minimized` is the deduplicated view. -/
inductive Mode where
  | full : Mode
  | minimized : Mode
deriving DecidableEq, Repr

/-- Modelled from the spec: an edge of the metaprogram graph is a directed
caller-to-callee relation carrying an enabled status (disabled edges are
excluded by the filtered views). -/
structure EdgeData where
  source : Nat
  target : Nat
  enabled : Bool
deriving DecidableEq, Repr

instance : Inhabited EdgeData := ⟨⟨0, 0, false⟩⟩

/-- Modelled from the spec: the read-only face of `data::metaprogram` used
by the forward trace iterator (root vertex, edge store in discovery order,
mode, the persistent discovered set, the current edge at which iteration
starts, and the frame data reachable through `to_frame` / `get_root_frame`).
Vertices and edges are integer indices, frames are coded as naturals. -/
structure Metaprogram where
  rootVertex : Nat
  edges : List EdgeData
  mode : Mode
  stateDiscovered : List Bool
  currentEdge : Option Nat
  rootFrame : Nat
  edgeFrames : List Nat
deriving DecidableEq, Repr

/-- Modelled from the spec: `get_target(e)` resolves an edge descriptor to
its callee vertex. -/
def Metaprogram.getTarget (mp : Metaprogram) (e : Nat) : Nat :=
  (mp.edges.getD e default).target

/-- Modelled from the spec: `to_frame(e)` yields the frame attached to the
callee of edge `e`. -/
def Metaprogram.toFrame (mp : Metaprogram) (e : Nat) : Nat :=
  mp.edgeFrames.getD e 0

/-- Modelled from the spec: `get_filtered_out_edges(v)` is the sequence of
enabled out-edges of `v` in discovery (index) order. -/
def Metaprogram.getFilteredOutEdges (mp : Metaprogram) (v : Nat) : List Nat :=
  (List.range mp.edges.length).filter
    (fun e => ((mp.edges.getD e default).source == v) && (mp.edges.getD e default).enabled)

/-- Modelled from the spec: `get_enabled_out_degree(v)` counts the
non-filtered out-edges of `v`. -/
def Metaprogram.getEnabledOutDegree (mp : Metaprogram) (v : Nat) : Nat :=
  (mp.getFilteredOutEdges v).length

/-- Well-formedness of the graph object as guaranteed by its construction:
the discovered array covers the root and every edge target, and the current
edge (when present) is a valid edge descriptor. -/
def Metaprogram.WF (mp : Metaprogram) : Prop :=
  mp.rootVertex < mp.stateDiscovered.length ∧
  (∀ e ∈ mp.edges, e.target < mp.stateDiscovered.length) ∧
  (∀ e ∈ mp.currentEdge.toList, e < mp.edges.length)

instance (mp : Metaprogram) : Decidable mp.WF := by
  unfold Metaprogram.WF
  infer_instance

/-- The vertex materialized by `visit`: the edge's target, or the root
vertex when the edge is absent (`edge_ ? _mp->get_target(*edge_) :
_mp->get_root_vertex()`). -/
def visitVertex (mp : Metaprogram) (edge : Option Nat) : Nat :=
  match edge with
  | some e => mp.getTarget e
  | none => mp.rootVertex

/-- The frame projected by `visit`: `edge_ ? _mp->to_frame(*edge_) :
_mp->get_root_frame()`. -/
def frameOf (mp : Metaprogram) (edge : Option Nat) : Nat :=
  match edge with
  | some e => mp.toFrame e
  | none => mp.rootFrame

/-- The condition `_max_depth && *_max_depth <= depth_`. -/
def depthLimitReached (md : Option Int) (depth : Int) : Bool :=
  match md with
  | some d => decide (d ≤ depth)
  | none => false

/-- The condition `!_max_depth || *_max_depth > depth_`. -/
def depthLimitNotReached (md : Option Int) (depth : Int) : Bool :=
  match md with
  | some d => decide (depth < d)
  | none => true

/-- A `data::call_graph_node` projection: frame, depth and reported number
of children. -/
structure CallGraphNode where
  frame : Nat
  depth : Int
  numberOfChildren : Nat
deriving DecidableEq, Repr

/-- State of a `forward_trace_iterator`: finished flag, optional maximum
depth, private discovered snapshot, the pending `(edge-or-none, depth)`
stack (head is the top), and the current projected node.  `curVertex`
records the vertex resolved by the latest `visit` call (the local
`vertex` variable of the source), so that theorems can speak about which
vertex a projected node came from. -/
structure Iter where
  finished : Bool
  maxDepth : Option Int
  discovered : List Bool
  toVisit : List (Option Nat × Int)
  current : CallGraphNode
  curVertex : Nat
deriving DecidableEq, Repr

/-- The child count computed by `visit`:
`(_discovered[vertex] || (_max_depth && *_max_depth <= depth_)) ? 0 :
_mp->get_enabled_out_degree(vertex)`. -/
def newChildCount (mp : Metaprogram) (it : Iter) (edge : Option Nat) (depth : Int) : Nat :=
  if it.discovered.getD (visitVertex mp edge) false = true ∨
      depthLimitReached it.maxDepth depth = true then 0
  else mp.getEnabledOutDegree (visitVertex mp edge)

/-- `forward_trace_iterator::visit`: build the current projected node; if
the vertex was not yet discovered, mark it (unless the mode is `full`) and,
if the depth ceiling is not reached, push every filtered out-edge with
`depth + 1` onto the pending stack. -/
def Iter.visit (mp : Metaprogram) (it : Iter) (edge : Option Nat) (depth : Int) : Iter :=
  if it.discovered.getD (visitVertex mp edge) false = true then
    { it with
      current := { frame := frameOf mp edge, depth := depth,
                   numberOfChildren := newChildCount mp it edge depth },
      curVertex := visitVertex mp edge }
  else
    { it with
      current := { frame := frameOf mp edge, depth := depth,
                   numberOfChildren := newChildCount mp it edge depth },
      curVertex := visitVertex mp edge,
      discovered :=
        if mp.mode ≠ Mode.full then it.discovered.set (visitVertex mp edge) true
        else it.discovered,
      toVisit :=
        if depthLimitNotReached it.maxDepth depth = true then
          (mp.getFilteredOutEdges (visitVertex mp edge)).foldl
            (fun s e2 => (some e2, depth + 1) :: s) it.toVisit
        else it.toVisit }

/-- The default-constructed iterator: only `_finished` is set. -/
def Iter.endIter : Iter :=
  { finished := true, maxDepth := none, discovered := [], toVisit := [],
    current := { frame := 0, depth := 0, numberOfChildren := 0 }, curVertex := 0 }

/-- The graph-bound constructor: copy the graph's discovered set into the
private snapshot and `visit(_mp->get_current_edge(), 0)`. -/
def Iter.start (mp : Metaprogram) (maxDepth : Option Int) : Iter :=
  Iter.visit mp
    { finished := false, maxDepth := maxDepth, discovered := mp.stateDiscovered,
      toVisit := [],
      current := { frame := 0, depth := 0, numberOfChildren := 0 }, curVertex := 0 }
    mp.currentEdge 0

/-- `forward_trace_iterator::operator++`: pop the most recently pushed
pending entry and visit it; become finished when the stack is empty. -/
def Iter.inc (mp : Metaprogram) (it : Iter) : Iter :=
  match it.toVisit with
  | [] => { it with finished := true }
  | (edge, depth) :: rest => Iter.visit mp { it with toVisit := rest } edge depth

/-- `forward_trace_iterator::operator==`: `_finished == i_._finished`. -/
def Iter.beq (a b : Iter) : Bool :=
  a.finished == b.finished

/-- Iterated `operator++`. -/
def Iter.incN (mp : Metaprogram) : Nat → Iter → Iter
  | 0, it => it
  | Nat.succ n, it => Iter.incN mp n (Iter.inc mp it)

/-- The sequence of projected nodes yielded by the two-iterator range
idiom, each paired with the vertex it was materialized from, cut off at
`fuel` steps: while not finished, yield the current node and advance. -/
def runTrace (mp : Metaprogram) : Nat → Iter → List (Nat × CallGraphNode)
  | 0, _ => []
  | Nat.succ fuel, it =>
      if it.finished = true then []
      else (it.curVertex, it.current) :: runTrace mp fuel (Iter.inc mp it)

/-- Number of distinct paths (counting the empty path) that start at `v`
and follow filtered out-edges, computed with `fuel` bounding path length. -/
def subtreeCount (mp : Metaprogram) : Nat → Nat → Nat
  | 0, _ => 0
  | Nat.succ fuel, v =>
      1 + ((mp.getFilteredOutEdges v).map
            (fun e => subtreeCount mp fuel (mp.getTarget e))).sum

/-- The list of all edge-index paths of length `< fuel` that start at `v`
and follow filtered out-edges (the empty path included). -/
def pathsFrom (mp : Metaprogram) : Nat → Nat → List (List Nat)
  | 0, _ => []
  | Nat.succ fuel, v =>
      [] :: ((mp.getFilteredOutEdges v).map
              (fun e => (pathsFrom mp fuel (mp.getTarget e)).map
                          (fun p => e :: p))).flatten

/-- An edge-index list is a path from `v` when each edge is a filtered
out-edge of the vertex reached so far. -/
def IsPathFrom (mp : Metaprogram) : Nat → List Nat → Prop
  | _, [] => True
  | v, e :: es => e ∈ mp.getFilteredOutEdges v ∧ IsPathFrom mp (mp.getTarget e) es

/-- A topological rank certifying that the filtered graph is acyclic:
every enabled edge strictly increases the rank and all ranks are at most
`B`. -/
def TopoRank (mp : Metaprogram) (r : Nat → Nat) (B : Nat) : Prop :=
  (∀ v, r v ≤ B) ∧
  (∀ e, e < mp.edges.length → (mp.edges.getD e default).enabled = true →
    r (mp.edges.getD e default).source < r (mp.edges.getD e default).target)

/-- Modelled from the spec: the state of a `metaprogram_builder`
(metaprogram_builder.cpp is not among the provided sources; only its
header is).  It holds the graph under construction (vertex count and
edge list, with the root as vertex `0`), the stack of currently open edge
descriptors, and the element-key-to-vertex deduplication map keyed by
`(node, source_location)`, both coded as naturals. -/
structure BuilderState where
  vertexCount : Nat
  edges : List (Nat × Nat)
  edgeStack : List Nat
  elementVertexMap : List ((Nat × Nat) × Nat)
  result : Option Nat
deriving DecidableEq, Repr

/-- Lookup of a dedup key in the element-vertex map. -/
def lookupKey (m : List ((Nat × Nat) × Nat)) (k : Nat × Nat) : Option Nat :=
  match m with
  | [] => none
  | (k2, v) :: rest => if k2 = k then some v else lookupKey rest k

/-- Modelled from the spec: `add_vertex(node, source_location)` reuses the
vertex recorded under the dedup key when one exists and otherwise creates
a fresh vertex and records it in the map. -/
def addVertex (st : BuilderState) (node srcLoc : Nat) : BuilderState × Nat :=
  match lookupKey st.elementVertexMap (node, srcLoc) with
  | some v => (st, v)
  | none =>
      ({ st with
         vertexCount := st.vertexCount + 1,
         elementVertexMap := ((node, srcLoc), st.vertexCount) :: st.elementVertexMap },
       st.vertexCount)

/-- Modelled from the spec: the vertex new edges are attached to — the
target of the top open edge, or the root when the stack is empty. -/
def topVertex (st : BuilderState) : Nat :=
  match st.edgeStack with
  | [] => 0
  | e :: _ => (st.edges.getD e (0, 0)).2

/-- Modelled from the spec: `handle_template_begin` resolves the dedup key
through `add_vertex`, adds a fresh edge from the current top-of-stack
vertex (or the root) to the resolved vertex, and pushes that edge onto the
edge stack.  Timestamps and the point-of-event location do not affect the
graph structure and are omitted. -/
def handleTemplateBegin (st : BuilderState) (node srcLoc : Nat) : BuilderState :=
  ((fun stv : BuilderState × Nat =>
    { stv.1 with
      edges := stv.1.edges ++ [(topVertex stv.1, stv.2)],
      edgeStack := stv.1.edges.length :: stv.1.edgeStack })
   (addVertex st node srcLoc))

/-- Modelled from the spec: `handle_template_end` pops the current open
edge; an end with an empty stack is a structural fault (`none`). -/
def handleTemplateEnd (st : BuilderState) : Option BuilderState :=
  match st.edgeStack with
  | [] => none
  | _ :: rest => some { st with edgeStack := rest }

/-- Modelled from the spec: `handle_evaluation_end` stores the final
result; invoking it while the edge stack is non-empty is a structural
fault (`none`). -/
def handleEvaluationEnd (st : BuilderState) (res : Nat) : Option BuilderState :=
  match st.edgeStack with
  | [] => some { st with result := some res }
  | _ :: _ => none

/-- Template-step begin/end events as fed to the builder. -/
inductive TraceEvent where
  | templateBegin (node srcLoc : Nat) : TraceEvent
  | templateEnd : TraceEvent
deriving DecidableEq, Repr

/-- Feed a sequence of template-step events to the builder; a structural
fault abandons the rest of the sequence. -/
def processEvents (st : BuilderState) : List TraceEvent → Option BuilderState
  | [] => some st
  | TraceEvent.templateBegin n l :: rest => processEvents (handleTemplateBegin st n l) rest
  | TraceEvent.templateEnd :: rest =>
      match handleTemplateEnd st with
      | some st2 => processEvents st2 rest
      | none => none

/-- Well-formed (balanced) template-step event sequences: properly nested
begin/end pairs. -/
inductive Balanced : List TraceEvent → Prop where
  | nil : Balanced []
  | wrap (n l : Nat) (evs : List TraceEvent) : Balanced evs →
      Balanced (TraceEvent.templateBegin n l :: evs ++ [TraceEvent.templateEnd])
  | append (a b : List TraceEvent) : Balanced a → Balanced b → Balanced (a ++ b)

/-- Modelled from the spec: the builder's constructor creates the root
vertex through `add_vertex` with the root name and root source location,
so the map starts with the root's key and the stack empty. -/
def initBuilder (rootNode rootLoc : Nat) : BuilderState :=
  { vertexCount := 1, edges := [], edgeStack := [],
    elementVertexMap := [((rootNode, rootLoc), 0)], result := none }

/-- The invariant that the element-key-to-vertex map is a bijection
between observed keys and vertex indices: no two entries share a key, no
two entries share a vertex, and the vertices recorded are exactly
`0, …, vertexCount - 1`. -/
def BuilderInv (st : BuilderState) : Prop :=
  st.elementVertexMap.Pairwise (fun a b => a.1 ≠ b.1 ∧ a.2 ≠ b.2) ∧
  (∀ v, v < st.vertexCount ↔ ∃ k, (k, v) ∈ st.elementVertexMap)

/-- Target of the edge created by the latest begin event. -/
def lastEdgeTarget (st : BuilderState) : Nat :=
  match st.edges.getLast? with
  | some e => e.2
  | none => 0

/-- Example graph: root `0` with children `1` (A) and `3` (C), both of
which call the shared vertex `2` (B), which calls `4` (D).  Minimized
mode, nothing discovered, iteration starting at the root. -/
def mpShared : Metaprogram :=
  { rootVertex := 0,
    edges := [⟨0, 1, true⟩, ⟨0, 3, true⟩, ⟨3, 2, true⟩, ⟨1, 2, true⟩, ⟨2, 4, true⟩],
    mode := Mode.minimized,
    stateDiscovered := [false, false, false, false, false],
    currentEdge := none,
    rootFrame := 100,
    edgeFrames := [101, 103, 102, 102, 104] }

/-- Example DAG in full mode: root `0` with edges to `1` and `2`, both of
which reach the shared vertex `3`; five distinct root-to-vertex paths. -/
def mpDiamond : Metaprogram :=
  { rootVertex := 0,
    edges := [⟨0, 1, true⟩, ⟨0, 2, true⟩, ⟨1, 3, true⟩, ⟨2, 3, true⟩],
    mode := Mode.full,
    stateDiscovered := [false, false, false, false],
    currentEdge := none,
    rootFrame := 200,
    edgeFrames := [201, 202, 203, 203] }

/-- A topological rank for `mpDiamond`. -/
def rankDiamond (v : Nat) : Nat :=
  if v = 0 then 0 else if v = 3 then 2 else 1

/-- Example chain `0 → 1 → 2` in full mode, used for the depth-ceiling
claims. -/
def mpChain : Metaprogram :=
  { rootVertex := 0,
    edges := [⟨0, 1, true⟩, ⟨1, 2, true⟩],
    mode := Mode.full,
    stateDiscovered := [false, false, false],
    currentEdge := none,
    rootFrame := 300,
    edgeFrames := [301, 302] }

/-- The iterator record built by `Iter.start` over `mpShared` before the
constructor's `visit` call. -/
def itSharedInit : Iter :=
  { finished := false, maxDepth := none, discovered := mpShared.stateDiscovered,
    toVisit := [],
    current := { frame := 0, depth := 0, numberOfChildren := 0 }, curVertex := 0 }

/-- States reachable by a forward-trace iterator over a well-formed
minimized-mode graph: the discovered snapshot keeps the length of the
graph's discovered set, every pending entry is a valid edge descriptor,
and the vertex of the current node is marked discovered in the snapshot. -/
def IterInvMin (mp : Metaprogram) (it : Iter) : Prop :=
  it.discovered.length = mp.stateDiscovered.length ∧
  (∀ p ∈ it.toVisit, ∃ e, p.1 = some e ∧ e < mp.edges.length) ∧
  (it.finished = false → it.discovered.getD it.curVertex false = true)

/-- States reachable by an iterator constructed with maximum depth `d`:
the current node respects the ceiling (and is a leaf exactly at the
ceiling) and every pending entry's depth is at most `d`. -/
def DepthInv (d : Int) (it : Iter) : Prop :=
  it.maxDepth = some d ∧
  (it.finished = false → it.current.depth ≤ d ∧
    (it.current.depth = d → it.current.numberOfChildren = 0)) ∧
  (∀ p ∈ it.toVisit, p.2 ≤ d)

/-- States of a full-mode, depth-unbounded iterator over a graph whose
discovered set is untouched (as produced by a full-mode builder). -/
def FullCtx (mp : Metaprogram) (it : Iter) : Prop :=
  it.maxDepth = none ∧ mp.mode = Mode.full ∧
  (∀ v, it.discovered.getD v false = false)

/-- Number of projected nodes a pending entry will still produce in full
mode, at fuel `F`. -/
def entryWeight (mp : Metaprogram) (F : Nat) (p : Option Nat × Int) : Nat :=
  subtreeCount mp F (visitVertex mp p.1)

/-- Number of projected nodes a pending stack will still produce in full
mode, at fuel `F`. -/
def stackMeasure (mp : Metaprogram) (F : Nat) (S : List (Option Nat × Int)) : Nat :=
  (S.map (entryWeight mp F)).sum

/-- Total number of projected nodes a full-mode iterator state will still
produce (current node included), at fuel `F`. -/
def fullMeasure (mp : Metaprogram) (F : Nat) (it : Iter) : Nat :=
  if it.finished = true then 0 else 1 + stackMeasure mp F it.toVisit

/-- Termination measure for minimized-mode traversals: undiscovered
vertices weighted by the edge count, plus the pending stack size. -/
def muMin (mp : Metaprogram) (it : Iter) : Nat :=
  it.discovered.count false * (mp.edges.length + 1) + it.toVisit.length

/-- Termination measure for depth-bounded traversals: each pending entry
at depth `k` weighs `(E + 1) ^ (d - k)`. -/
def muDepth (mp : Metaprogram) (d : Int) (it : Iter) : Nat :=
  (it.toVisit.map (fun p => (mp.edges.length + 1) ^ (d - p.2).toNat)).sum

theorem getD_set_true (l : List Bool) (w v : Nat) (h : l.getD v false = true) :
    (l.set w true).getD v false = true := by
  induction l generalizing w v with
  | nil => exact h
  | cons b t ih =>
    cases w with
    | zero =>
      cases v with
      | zero => simp
      | succ v => simpa using h
    | succ w =>
      cases v with
      | zero => simpa using h
      | succ v => simpa using ih w v (by simpa using h)

theorem getD_set_self (l : List Bool) (v : Nat) (h : v < l.length) :
    (l.set v true).getD v false = true := by
  induction l generalizing v with
  | nil => simp at h
  | cons b t ih =>
    cases v with
    | zero => simp
    | succ v => simpa using ih v (by simpa using h)

theorem getD_mem {α : Type} (l : List α) (n : Nat) (d : α) (h : n < l.length) :
    l.getD n d ∈ l := by
  induction l generalizing n with
  | nil => simp at h
  | cons a t ih =>
    cases n with
    | zero => simp
    | succ n => simpa using Or.inr (ih n (by simpa using h))

theorem getD_false_of_all_false (l : List Bool) (h : ∀ b ∈ l, b = false) (v : Nat) :
    l.getD v false = false := by
  induction l generalizing v with
  | nil => simp
  | cons b t ih =>
    cases v with
    | zero => simpa using h b (by simp)
    | succ v => simpa using ih (fun c hc => h c (by simp [hc])) v

theorem foldl_push {α β : Type} (l : List α) (f : α → β) (init : List β) :
    l.foldl (fun s e => f e :: s) init = (l.map f).reverse ++ init := by
  induction l generalizing init with
  | nil => simp
  | cons a t ih => simp [ih]

theorem mem_filtered (mp : Metaprogram) (v e : Nat) :
    e ∈ mp.getFilteredOutEdges v ↔
      e < mp.edges.length ∧ (mp.edges.getD e default).source = v ∧
        (mp.edges.getD e default).enabled = true := by
  simp [Metaprogram.getFilteredOutEdges, List.mem_filter, and_assoc]

theorem visit_finished (mp : Metaprogram) (it : Iter) (e : Option Nat) (d : Int) :
    (Iter.visit mp it e d).finished = it.finished := by
  unfold Iter.visit; split <;> rfl

theorem visit_maxDepth (mp : Metaprogram) (it : Iter) (e : Option Nat) (d : Int) :
    (Iter.visit mp it e d).maxDepth = it.maxDepth := by
  unfold Iter.visit; split <;> rfl

theorem visit_curVertex (mp : Metaprogram) (it : Iter) (e : Option Nat) (d : Int) :
    (Iter.visit mp it e d).curVertex = visitVertex mp e := by
  unfold Iter.visit; split <;> rfl

theorem visit_current (mp : Metaprogram) (it : Iter) (e : Option Nat) (d : Int) :
    (Iter.visit mp it e d).current =
      { frame := frameOf mp e, depth := d,
        numberOfChildren := newChildCount mp it e d } := by
  unfold Iter.visit; split <;> rfl

theorem visit_discovered_length (mp : Metaprogram) (it : Iter) (e : Option Nat) (d : Int) :
    (Iter.visit mp it e d).discovered.length = it.discovered.length := by
  unfold Iter.visit; split
  · rfl
  · dsimp only; split <;> simp

theorem visit_disc_mono (mp : Metaprogram) (it : Iter) (e : Option Nat) (d : Int) (v : Nat)
    (h : it.discovered.getD v false = true) :
    (Iter.visit mp it e d).discovered.getD v false = true := by
  unfold Iter.visit; split
  · exact h
  · dsimp only; split
    · exact getD_set_true _ _ _ h
    · exact h

theorem visit_mark (mp : Metaprogram) (it : Iter) (e : Option Nat) (d : Int)
    (hmode : mp.mode ≠ Mode.full) (hlen : visitVertex mp e < it.discovered.length) :
    (Iter.visit mp it e d).discovered.getD (visitVertex mp e) false = true := by
  unfold Iter.visit
  by_cases hd : it.discovered.getD (visitVertex mp e) false = true
  · rw [if_pos hd]
    exact hd
  · rw [if_neg hd]
    dsimp only
    rw [if_pos hmode]
    exact getD_set_self _ _ hlen

theorem visit_discovered_full (mp : Metaprogram) (it : Iter) (e : Option Nat) (d : Int)
    (hmode : mp.mode = Mode.full) :
    (Iter.visit mp it e d).discovered = it.discovered := by
  unfold Iter.visit; split
  · rfl
  · simp [hmode]

theorem visit_children_zero (mp : Metaprogram) (it : Iter) (e : Option Nat) (d : Int)
    (hd : it.discovered.getD (visitVertex mp e) false = true) :
    (Iter.visit mp it e d).current.numberOfChildren = 0 := by
  rw [visit_current]
  show newChildCount mp it e d = 0
  unfold newChildCount
  rw [if_pos (Or.inl hd)]

theorem visit_children_zero_depth (mp : Metaprogram) (it : Iter) (e : Option Nat) (d : Int)
    (hd : depthLimitReached it.maxDepth d = true) :
    (Iter.visit mp it e d).current.numberOfChildren = 0 := by
  rw [visit_current]
  show newChildCount mp it e d = 0
  unfold newChildCount
  rw [if_pos (Or.inr hd)]

theorem visit_of_discovered (mp : Metaprogram) (it : Iter) (e : Option Nat) (d : Int)
    (hd : it.discovered.getD (visitVertex mp e) false = true) :
    (Iter.visit mp it e d).toVisit = it.toVisit ∧
    (Iter.visit mp it e d).discovered = it.discovered := by
  unfold Iter.visit
  rw [if_pos hd]
  exact ⟨rfl, rfl⟩

theorem visit_toVisit_expand (mp : Metaprogram) (it : Iter) (e : Option Nat) (d : Int)
    (hd : it.discovered.getD (visitVertex mp e) false = false)
    (hdep : depthLimitNotReached it.maxDepth d = true) :
    (Iter.visit mp it e d).toVisit =
      ((mp.getFilteredOutEdges (visitVertex mp e)).map
        (fun e2 => ((some e2 : Option Nat), d + 1))).reverse ++ it.toVisit := by
  unfold Iter.visit
  rw [if_neg (by rw [hd]; simp)]
  dsimp only
  rw [if_pos hdep]
  exact foldl_push _ _ _

theorem visit_toVisit_nopush (mp : Metaprogram) (it : Iter) (e : Option Nat) (d : Int)
    (hdep : depthLimitNotReached it.maxDepth d = false) :
    (Iter.visit mp it e d).toVisit = it.toVisit := by
  unfold Iter.visit
  split
  · rfl
  · dsimp only
    rw [if_neg (by simp [hdep])]

theorem visit_toVisit_mem (mp : Metaprogram) (it : Iter) (e : Option Nat) (d : Int)
    (p : Option Nat × Int) (hp : p ∈ (Iter.visit mp it e d).toVisit) :
    p ∈ it.toVisit ∨
      ∃ e2, p = ((some e2 : Option Nat), d + 1) ∧
        e2 ∈ mp.getFilteredOutEdges (visitVertex mp e) ∧
        depthLimitNotReached it.maxDepth d = true := by
  by_cases hd : it.discovered.getD (visitVertex mp e) false = true
  · rw [(visit_of_discovered mp it e d hd).1] at hp
    exact Or.inl hp
  · by_cases hdep : depthLimitNotReached it.maxDepth d = true
    · rw [visit_toVisit_expand mp it e d (by simpa using hd) hdep] at hp
      rcases List.mem_append.1 hp with h | h
      · rcases List.mem_map.1 (List.mem_reverse.1 h) with ⟨e2, he2, rfl⟩
        exact Or.inr ⟨e2, rfl, he2, hdep⟩
      · exact Or.inl h
    · rw [visit_toVisit_nopush mp it e d (by simpa using hdep)] at hp
      exact Or.inl hp

theorem inc_nil (mp : Metaprogram) (it : Iter) (h : it.toVisit = []) :
    Iter.inc mp it = { it with finished := true } := by
  simp [Iter.inc, h]

theorem inc_cons (mp : Metaprogram) (it : Iter) (edge : Option Nat) (depth : Int)
    (rest : List (Option Nat × Int)) (h : it.toVisit = (edge, depth) :: rest) :
    Iter.inc mp it = Iter.visit mp { it with toVisit := rest } edge depth := by
  simp [Iter.inc, h]

theorem runTrace_succ (mp : Metaprogram) (fuel : Nat) (it : Iter) :
    runTrace mp (fuel + 1) it =
      if it.finished = true then []
      else (it.curVertex, it.current) :: runTrace mp fuel (Iter.inc mp it) := rfl

theorem start_finished (mp : Metaprogram) (md : Option Int) :
    (Iter.start mp md).finished = false := by
  unfold Iter.start; rw [visit_finished]

theorem start_maxDepth (mp : Metaprogram) (md : Option Int) :
    (Iter.start mp md).maxDepth = md := by
  unfold Iter.start; rw [visit_maxDepth]

/-- C6: with the iteration starting at the root (the spec's traversal has
no notion of a saved current position, so `get_current_edge`, whose
implementation is not among the sources, is modelled as yielding no edge),
the first projected node of a freshly constructed forward-trace iterator
is the root vertex's frame at depth 0. -/
theorem first_node_is_root_frame (mp : Metaprogram) (md : Option Int) (fuel : Nat)
    (hcur : mp.currentEdge = none) :
    ∃ p, (runTrace mp (fuel + 1) (Iter.start mp md)).head? = some p ∧
      p.2.frame = mp.rootFrame ∧ p.2.depth = 0 := by
  refine ⟨((Iter.start mp md).curVertex, (Iter.start mp md).current), ?_, ?_, ?_⟩
  · rw [runTrace_succ, if_neg (by simp [start_finished])]
    rfl
  · unfold Iter.start
    rw [hcur, visit_current]
    simp [frameOf]
  · unfold Iter.start
    rw [hcur, visit_current]

theorem first_node_is_root_frame_witness :
    ∃ p, (runTrace mpShared 10 (Iter.start mpShared none)).head? = some p ∧
      p.2.frame = mpShared.rootFrame ∧ p.2.depth = 0 :=
  first_node_is_root_frame mpShared none 9 rfl

/-- C8 (amended): two forward-trace iterators compare equal exactly when
their finished flags agree; in particular a finished iterator and a
non-finished one never compare equal, and no other iterator state
participates in the comparison. -/
theorem iterator_beq_iff_finished_eq (a b : Iter) :
    Iter.beq a b = true ↔ a.finished = b.finished := by
  simp [Iter.beq]

theorem iterator_beq_iff_finished_eq_witness :
    Iter.beq Iter.endIter Iter.endIter = true :=
  (iterator_beq_iff_finished_eq Iter.endIter Iter.endIter).2 rfl

/-- C8 counterexample: two freshly constructed iterators, neither of which
has reached the finished state, nevertheless compare equal — refuting
"iterators compare equal exactly when both have reached the finished
state". -/
theorem iterator_beq_counterexample :
    Iter.beq (Iter.start mpShared none) (Iter.start mpChain none) = true ∧
    (Iter.start mpShared none).finished = false ∧
    (Iter.start mpChain none).finished = false := by
  refine ⟨?_, ?_, ?_⟩ <;> decide

/-- C10: a default-constructed forward-trace iterator is already finished,
yields no projected nodes, and compares equal to every iterator that has
exhausted its traversal, so it serves as the end sentinel of the iterator
range. -/
theorem default_iterator_is_end_sentinel :
    Iter.endIter.finished = true ∧
    (∀ mp fuel, runTrace mp fuel Iter.endIter = []) ∧
    (∀ it : Iter, it.finished = true → Iter.beq Iter.endIter it = true) := by
  refine ⟨rfl, ?_, ?_⟩
  · intro mp fuel
    cases fuel <;> simp [runTrace, Iter.endIter]
  · intro it h
    simp [Iter.beq, Iter.endIter, h]

theorem default_iterator_is_end_sentinel_witness :
    Iter.beq Iter.endIter (Iter.incN mpChain 3 (Iter.start mpChain none)) = true :=
  default_iterator_is_end_sentinel.2.2 _ (by decide)

theorem inc_finished_true (mp : Metaprogram) (it : Iter) (h : it.finished = true) :
    (Iter.inc mp it).finished = true := by
  rcases ht : it.toVisit with _ | ⟨⟨oe, dep⟩, rest⟩
  · rw [inc_nil mp it ht]
  · rw [inc_cons mp it oe dep rest ht, visit_finished]
    exact h

theorem incN_finished_mono (mp : Metaprogram) :
    ∀ (n : Nat) (it : Iter), it.finished = true →
      (Iter.incN mp n it).finished = true := by
  intro n
  induction n with
  | zero => intro it h; exact h
  | succ n ih => intro it h; exact ih (Iter.inc mp it) (inc_finished_true mp it h)

theorem incN_succ (mp : Metaprogram) (n : Nat) (it : Iter) :
    Iter.incN mp (n + 1) it = Iter.incN mp n (Iter.inc mp it) := rfl

theorem incN_add (mp : Metaprogram) :
    ∀ (b a : Nat) (it : Iter),
      Iter.incN mp a (Iter.incN mp b it) = Iter.incN mp (a + b) it := by
  intro b
  induction b with
  | zero => intro a it; rfl
  | succ b ih =>
    intro a it
    show Iter.incN mp a (Iter.incN mp b (Iter.inc mp it)) = _
    rw [ih a (Iter.inc mp it)]
    rw [show a + (b + 1) = (a + b) + 1 by omega, incN_succ]

theorem lt_fuel_of_not_finished (mp : Metaprogram) (fuel k : Nat) (it : Iter)
    (hterm : (Iter.incN mp fuel it).finished = true)
    (hk : (Iter.incN mp k it).finished = false) : k < fuel := by
  by_contra hc
  push_neg at hc
  have heq : Iter.incN mp k it = Iter.incN mp (k - fuel) (Iter.incN mp fuel it) := by
    rw [incN_add]
    congr 1
    omega
  rw [heq, incN_finished_mono mp (k - fuel) _ hterm] at hk
  exact Bool.noConfusion hk

theorem runTrace_get (mp : Metaprogram) :
    ∀ (k fuel : Nat) (it : Iter), k < fuel →
      (Iter.incN mp k it).finished = false →
      (runTrace mp fuel it).get? k =
        some ((Iter.incN mp k it).curVertex, (Iter.incN mp k it).current) := by
  intro k
  induction k with
  | zero =>
    intro fuel it hk hf
    obtain ⟨f2, rfl⟩ : ∃ f2, fuel = f2 + 1 := ⟨fuel - 1, by omega⟩
    have hf0 : it.finished = false := hf
    rw [runTrace_succ, if_neg (by rw [hf0]; simp)]
    rfl
  | succ k ih =>
    intro fuel it hk hf
    obtain ⟨f2, rfl⟩ : ∃ f2, fuel = f2 + 1 := ⟨fuel - 1, by omega⟩
    have hf0 : it.finished = false := by
      by_contra hc
      have hc2 : it.finished = true := by simpa using hc
      rw [incN_finished_mono mp (k + 1) it hc2] at hf
      exact Bool.noConfusion hf
    rw [runTrace_succ, if_neg (by rw [hf0]; simp), List.get?_cons_succ]
    exact ih f2 (Iter.inc mp it) (by omega) hf

theorem visit_toVisit_suffix (mp : Metaprogram) (it : Iter) (e : Option Nat) (d : Int) :
    ∃ S2, (Iter.visit mp it e d).toVisit = S2 ++ it.toVisit := by
  by_cases hd : it.discovered.getD (visitVertex mp e) false = true
  · exact ⟨[], by rw [(visit_of_discovered mp it e d hd).1]; rfl⟩
  · by_cases hdep : depthLimitNotReached it.maxDepth d = true
    · exact ⟨((mp.getFilteredOutEdges (visitVertex mp e)).map
        (fun e2 => ((some e2 : Option Nat), d + 1))).reverse,
        visit_toVisit_expand mp it e d (by simpa using hd) hdep⟩
    · exact ⟨[], by rw [visit_toVisit_nopush mp it e d (by simpa using hdep)]; rfl⟩

theorem traverse_segment (mp : Metaprogram) :
    ∀ (fuel : Nat) (it : Iter) (S T : List (Option Nat × Int)),
      it.finished = false → it.toVisit = S ++ T →
      (Iter.incN mp fuel it).finished = true →
      ∃ j, j ≤ fuel ∧ (Iter.incN mp j it).finished = false ∧
        (Iter.incN mp j it).toVisit = T := by
  intro fuel
  induction fuel with
  | zero =>
    intro it S T hfin hstack hterm
    have hterm2 : it.finished = true := hterm
    rw [hfin] at hterm2
    exact Bool.noConfusion hterm2
  | succ fuel ih =>
    intro it S T hfin hstack hterm
    cases S with
    | nil => exact ⟨0, by omega, hfin, by simpa using hstack⟩
    | cons p S2 =>
      obtain ⟨oe, dep⟩ := p
      have hcons : it.toVisit = (oe, dep) :: (S2 ++ T) := by simpa using hstack
      have hinc : Iter.inc mp it =
          Iter.visit mp { it with toVisit := S2 ++ T } oe dep :=
        inc_cons mp it _ _ _ hcons
      have hfin1 : (Iter.inc mp it).finished = false := by
        rw [hinc, visit_finished]
        exact hfin
      obtain ⟨S4, hS4⟩ := visit_toVisit_suffix mp { it with toVisit := S2 ++ T } oe dep
      have hS3 : (Iter.inc mp it).toVisit = (S4 ++ S2) ++ T := by
        rw [hinc, hS4, List.append_assoc]
      obtain ⟨j, hj, hjf, hjs⟩ := ih (Iter.inc mp it) (S4 ++ S2) T hfin1 hS3 hterm
      exact ⟨j + 1, by omega, hjf, hjs⟩

theorem pops_in_order (mp : Metaprogram) :
    ∀ (cs : List Nat) (it : Iter) (d : Int) (rest : List (Option Nat × Int))
      (fuel : Nat),
      it.finished = false →
      it.toVisit = cs.map (fun e => ((some e : Option Nat), d)) ++ rest →
      (Iter.incN mp fuel it).finished = true →
      ∃ ks : List Nat, ks.Pairwise (· < ·) ∧ (∀ k ∈ ks, 1 ≤ k) ∧
        List.Forall₂ (fun (k e : Nat) =>
          (Iter.incN mp k it).finished = false ∧
          (Iter.incN mp k it).curVertex = mp.getTarget e ∧
          (Iter.incN mp k it).current.depth = d ∧
          (Iter.incN mp k it).current.frame = mp.toFrame e) ks cs := by
  intro cs
  induction cs with
  | nil =>
    intro it d rest fuel _ _ _
    exact ⟨[], List.Pairwise.nil, by simp, List.Forall₂.nil⟩
  | cons e cs2 ih =>
    intro it d rest fuel hfin hstack hterm
    have hfuel : fuel ≠ 0 := by
      intro h0
      subst h0
      have hterm2 : it.finished = true := hterm
      rw [hfin] at hterm2
      exact Bool.noConfusion hterm2
    obtain ⟨fuel2, rfl⟩ : ∃ f2, fuel = f2 + 1 := ⟨fuel - 1, by omega⟩
    have hcons : it.toVisit = ((some e : Option Nat), d) ::
        (cs2.map (fun e2 => ((some e2 : Option Nat), d)) ++ rest) := by
      rw [hstack]
      rfl
    have hinc : Iter.inc mp it = Iter.visit mp
        { it with toVisit := cs2.map (fun e2 => ((some e2 : Option Nat), d)) ++ rest }
        (some e) d := inc_cons mp it _ _ _ hcons
    have hfin1 : (Iter.inc mp it).finished = false := by
      rw [hinc, visit_finished]
      exact hfin
    obtain ⟨S4, hS4⟩ := visit_toVisit_suffix mp
      { it with toVisit := cs2.map (fun e2 => ((some e2 : Option Nat), d)) ++ rest }
      (some e) d
    have hS2 : (Iter.inc mp it).toVisit =
        S4 ++ (cs2.map (fun e2 => ((some e2 : Option Nat), d)) ++ rest) := by
      rw [hinc, hS4]
    have hterm1 : (Iter.incN mp fuel2 (Iter.inc mp it)).finished = true := hterm
    obtain ⟨j, hj, hjfin, hjstack⟩ :=
      traverse_segment mp fuel2 (Iter.inc mp it) S4 _ hfin1 hS2 hterm1
    have hterm2 : (Iter.incN mp (fuel2 - j)
        (Iter.incN mp j (Iter.inc mp it))).finished = true := by
      rw [incN_add, show fuel2 - j + j = fuel2 by omega]
      exact hterm1
    obtain ⟨ks2, hpw2, hlb2, hF2⟩ :=
      ih (Iter.incN mp j (Iter.inc mp it)) d rest (fuel2 - j) hjfin hjstack hterm2
    have hshift : ∀ k2 : Nat, Iter.incN mp (k2 + (j + 1)) it =
        Iter.incN mp k2 (Iter.incN mp j (Iter.inc mp it)) := by
      intro k2
      rw [incN_add, show k2 + (j + 1) = (k2 + j) + 1 by omega, incN_succ]
    refine ⟨1 :: ks2.map (fun k => k + (j + 1)), ?_, ?_, ?_⟩
    · rw [List.pairwise_cons]
      constructor
      · intro k hk
        obtain ⟨k2, hk2, rfl⟩ := List.mem_map.1 hk
        have := hlb2 k2 hk2
        omega
      · rw [List.pairwise_map]
        exact List.Pairwise.imp (fun h => by omega) hpw2
    · intro k hk
      rcases List.mem_cons.1 hk with rfl | hk2
      · omega
      · obtain ⟨k2, _, rfl⟩ := List.mem_map.1 hk2
        omega
    · refine List.Forall₂.cons ?_ ?_
      · have h1 : Iter.incN mp 1 it = Iter.inc mp it := rfl
        rw [h1, hinc]
        refine ⟨by rw [visit_finished]; exact hfin, ?_, ?_, ?_⟩
        · rw [visit_curVertex]
          rfl
        · rw [visit_current]
        · rw [visit_current]
          rfl
      · rw [List.forall₂_map_left_iff]
        refine hF2.imp ?_
        intro a b hab
        rw [hshift a]
        exact hab

/-- C5: for every vertex whose children are expanded by a forward-trace
iterator (an un-discovered vertex visited below the depth ceiling), in an
iteration that terminates within the given fuel, ALL of its children are
subsequently yielded, at strictly increasing trace positions matched
one-to-one with the REVERSE of the order in which the vertex's filtered
out-edges are enumerated, each child node carrying that edge's frame at
depth + 1 — because the out-edges are pushed onto the pending stack in
discovery order and `operator++` pops the most recently pushed entry. -/
theorem stack_lifo_reverse_sibling_order (mp : Metaprogram) (it : Iter)
    (edge : Option Nat) (depth : Int) (fuel : Nat)
    (hfin : it.finished = false)
    (hd : it.discovered.getD (visitVertex mp edge) false = false)
    (hdep : depthLimitNotReached it.maxDepth depth = true)
    (hterm : (Iter.incN mp fuel (Iter.visit mp it edge depth)).finished = true) :
    ∃ ks : List Nat, ks.Pairwise (· < ·) ∧
      List.Forall₂ (fun (k e : Nat) =>
        ∃ n : CallGraphNode,
          (runTrace mp fuel (Iter.visit mp it edge depth)).get? k =
            some (mp.getTarget e, n) ∧
          n.depth = depth + 1 ∧ n.frame = mp.toFrame e)
        ks ((mp.getFilteredOutEdges (visitVertex mp edge)).reverse) := by
  have hfin1 : (Iter.visit mp it edge depth).finished = false := by
    rw [visit_finished]
    exact hfin
  have hstack : (Iter.visit mp it edge depth).toVisit =
      ((mp.getFilteredOutEdges (visitVertex mp edge)).reverse.map
        (fun e => ((some e : Option Nat), depth + 1))) ++ it.toVisit := by
    rw [visit_toVisit_expand mp it edge depth hd hdep, ← List.map_reverse]
  obtain ⟨ks, hpw, _, hF⟩ := pops_in_order mp
    ((mp.getFilteredOutEdges (visitVertex mp edge)).reverse)
    (Iter.visit mp it edge depth) (depth + 1) it.toVisit fuel hfin1 hstack hterm
  refine ⟨ks, hpw, hF.imp ?_⟩
  intro k e hP
  obtain ⟨hkfin, hcv, hdep2, hfr⟩ := hP
  have hk : k < fuel :=
    lt_fuel_of_not_finished mp fuel k (Iter.visit mp it edge depth) hterm hkfin
  refine ⟨(Iter.incN mp k (Iter.visit mp it edge depth)).current, ?_, hdep2, hfr⟩
  rw [runTrace_get mp k fuel (Iter.visit mp it edge depth) hk hkfin, hcv]

theorem mem_of_getq {α : Type} (l : List α) (n : Nat) (a : α) (h : l.get? n = some a) :
    a ∈ l := by
  induction l generalizing n with
  | nil => simp at h
  | cons b t ih =>
    cases n with
    | zero => simp at h; simp [h]
    | succ n => exact List.mem_cons_of_mem b (ih n (by simpa using h))

theorem visitVertex_lt (mp : Metaprogram) (hWF : mp.WF) (e : Option Nat)
    (he : ∀ x ∈ e.toList, x < mp.edges.length) :
    visitVertex mp e < mp.stateDiscovered.length := by
  cases e with
  | none => exact hWF.1
  | some x => exact hWF.2.1 _ (getD_mem _ _ _ (he x (by simp)))

theorem minimized_ne_full (mp : Metaprogram) (hmode : mp.mode = Mode.minimized) :
    mp.mode ≠ Mode.full := by
  rw [hmode]; decide

theorem start_inv (mp : Metaprogram) (md : Option Int) (hWF : mp.WF)
    (hmode : mp.mode = Mode.minimized) : IterInvMin mp (Iter.start mp md) := by
  unfold Iter.start
  refine ⟨?_, ?_, ?_⟩
  · rw [visit_discovered_length]
  · intro p hp
    rcases visit_toVisit_mem _ _ _ _ p hp with h | ⟨e2, rfl, he2, _⟩
    · simp at h
    · exact ⟨e2, rfl, ((mem_filtered mp _ e2).1 he2).1⟩
  · intro _
    rw [visit_curVertex]
    exact visit_mark _ _ _ _ (minimized_ne_full mp hmode)
      (visitVertex_lt mp hWF _ hWF.2.2)

theorem inc_inv_min (mp : Metaprogram) (it : Iter) (hWF : mp.WF)
    (hmode : mp.mode = Mode.minimized) (hinv : IterInvMin mp it) :
    IterInvMin mp (Iter.inc mp it) := by
  rcases ht : it.toVisit with _ | ⟨⟨oe, dep⟩, rest⟩
  · rw [inc_nil mp it ht]
    exact ⟨hinv.1, fun p hp => hinv.2.1 p hp, by intro h; simp at h⟩
  · obtain ⟨e, hoe, he⟩ := hinv.2.1 (oe, dep) (by rw [ht]; exact List.mem_cons_self _ _)
    rw [inc_cons mp it oe dep rest ht]
    refine ⟨?_, ?_, ?_⟩
    · rw [visit_discovered_length]
      exact hinv.1
    · intro q hq
      rcases visit_toVisit_mem _ _ _ _ q hq with h | ⟨e2, rfl, he2, _⟩
      · exact hinv.2.1 q (by rw [ht]; exact List.mem_cons_of_mem _ h)
      · exact ⟨e2, rfl, ((mem_filtered mp _ e2).1 he2).1⟩
    · intro _
      rw [visit_curVertex]
      apply visit_mark _ _ _ _ (minimized_ne_full mp hmode)
      show visitVertex mp oe < it.discovered.length
      rw [hinv.1]
      have hoe2 : oe = some e := hoe
      refine visitVertex_lt mp hWF oe ?_
      intro x hx
      rw [hoe2] at hx
      simp at hx
      rw [hx]
      exact he

theorem inc_disc_mono (mp : Metaprogram) (it : Iter) (v : Nat)
    (h : it.discovered.getD v false = true) :
    (Iter.inc mp it).discovered.getD v false = true := by
  rcases ht : it.toVisit with _ | ⟨⟨oe, dep⟩, rest⟩
  · rw [inc_nil mp it ht]
    exact h
  · rw [inc_cons mp it oe dep rest ht]
    exact visit_disc_mono _ _ _ _ _ h

theorem inc_head_zero (mp : Metaprogram) (it : Iter) (v : Nat)
    (hdisc : it.discovered.getD v false = true)
    (hf : (Iter.inc mp it).finished = false)
    (hcv : (Iter.inc mp it).curVertex = v) :
    (Iter.inc mp it).current.numberOfChildren = 0 := by
  rcases ht : it.toVisit with _ | ⟨⟨oe, dep⟩, rest⟩
  · rw [inc_nil mp it ht] at hf
    simp at hf
  · rw [inc_cons mp it oe dep rest ht] at hcv ⊢
    rw [visit_curVertex] at hcv
    apply visit_children_zero
    show it.discovered.getD (visitVertex mp oe) false = true
    rw [hcv]
    exact hdisc

theorem run_revisit_zero (mp : Metaprogram) (hWF : mp.WF)
    (hmode : mp.mode = Mode.minimized) :
    ∀ (fuel : Nat) (it : Iter) (v : Nat), IterInvMin mp it →
      it.discovered.getD v false = true →
      (it.finished = false → it.curVertex = v → it.current.numberOfChildren = 0) →
      ∀ p ∈ runTrace mp fuel it, p.1 = v → p.2.numberOfChildren = 0 := by
  intro fuel
  induction fuel with
  | zero =>
    intro it v _ _ _ p hp
    simp [runTrace] at hp
  | succ fuel ih =>
    intro it v hinv hdisc hcur p hp hpv
    rw [runTrace_succ] at hp
    by_cases hf : it.finished = true
    · rw [if_pos hf] at hp
      simp at hp
    · have hf2 : it.finished = false := by simpa using hf
      rw [if_neg hf] at hp
      rcases List.mem_cons.1 hp with rfl | hp2
      · exact hcur hf2 hpv
      · exact ih (Iter.inc mp it) v (inc_inv_min mp it hWF hmode hinv)
          (inc_disc_mono mp it v hdisc)
          (fun hfi hcv => inc_head_zero mp it v hdisc hfi hcv) p hp2 hpv

theorem run_same_vertex_zero (mp : Metaprogram) (hWF : mp.WF)
    (hmode : mp.mode = Mode.minimized) :
    ∀ (fuel : Nat) (it : Iter), IterInvMin mp it →
      ∀ (i j : Nat) (v : Nat) (n1 n2 : CallGraphNode), i < j →
        (runTrace mp fuel it).get? i = some (v, n1) →
        (runTrace mp fuel it).get? j = some (v, n2) →
        n2.numberOfChildren = 0 := by
  intro fuel
  induction fuel with
  | zero =>
    intro it _ i j v n1 n2 _ h1 _
    simp [runTrace] at h1
  | succ fuel ih =>
    intro it hinv i j v n1 n2 hij h1 h2
    by_cases hf : it.finished = true
    · rw [runTrace_succ, if_pos hf] at h1
      simp at h1
    · have hf2 : it.finished = false := by simpa using hf
      rw [runTrace_succ, if_neg hf] at h1 h2
      cases i with
      | zero =>
        have hhead : (it.curVertex, it.current) = (v, n1) := by simpa using h1
        have hv : it.curVertex = v := congrArg Prod.fst hhead
        obtain ⟨j2, rfl⟩ : ∃ j2, j = j2 + 1 := by
          cases j with
          | zero => exact absurd hij (by simp)
          | succ j2 => exact ⟨j2, rfl⟩
        rw [List.get?_cons_succ] at h2
        have hdisc : it.discovered.getD v false = true := by
          rw [← hv]
          exact hinv.2.2 hf2
        exact run_revisit_zero mp hWF hmode fuel (Iter.inc mp it) v
          (inc_inv_min mp it hWF hmode hinv) (inc_disc_mono mp it v hdisc)
          (fun hfi hcv => inc_head_zero mp it v hdisc hfi hcv)
          (v, n2) (mem_of_getq _ _ _ h2) rfl
      | succ i2 =>
        obtain ⟨j2, rfl⟩ : ∃ j2, j = j2 + 1 := by
          cases j with
          | zero => exact absurd hij (by simp)
          | succ j2 => exact ⟨j2, rfl⟩
        rw [List.get?_cons_succ] at h1 h2
        exact ih (Iter.inc mp it) (inc_inv_min mp it hWF hmode hinv) i2 j2 v n1 n2
          (by omega) h1 h2

/-- C2: in minimized mode, during a single forward-trace iteration over a
well-formed graph, once a vertex has been visited anywhere in the
traversal, every later visit to that same vertex yields a projected node
whose reported child count is 0. -/
theorem minimized_revisit_reports_leaf (mp : Metaprogram) (md : Option Int)
    (hWF : mp.WF) (hmode : mp.mode = Mode.minimized)
    (fuel i j v : Nat) (n1 n2 : CallGraphNode) (hij : i < j)
    (h1 : (runTrace mp fuel (Iter.start mp md)).get? i = some (v, n1))
    (h2 : (runTrace mp fuel (Iter.start mp md)).get? j = some (v, n2)) :
    n2.numberOfChildren = 0 :=
  run_same_vertex_zero mp hWF hmode fuel (Iter.start mp md)
    (start_inv mp md hWF hmode) i j v n1 n2 hij h1 h2

theorem minimized_revisit_reports_leaf_witness :
    mpShared.WF ∧ mpShared.mode = Mode.minimized ∧
    (runTrace mpShared 10 (Iter.start mpShared none)).get? 2 =
      some (2, { frame := 102, depth := 2, numberOfChildren := 1 }) ∧
    (runTrace mpShared 10 (Iter.start mpShared none)).get? 5 =
      some (2, { frame := 102, depth := 2, numberOfChildren := 0 }) ∧
    ({ frame := 102, depth := 2, numberOfChildren := 0 } :
        CallGraphNode).numberOfChildren = 0 :=
  ⟨by decide, rfl, by decide, by decide,
    minimized_revisit_reports_leaf mpShared none (by decide) rfl 10 2 5 2
      { frame := 102, depth := 2, numberOfChildren := 1 }
      { frame := 102, depth := 2, numberOfChildren := 0 }
      (by decide) (by decide) (by decide)⟩

theorem stack_lifo_reverse_sibling_order_witness :
    itSharedInit.finished = false ∧
    itSharedInit.discovered.getD (visitVertex mpShared none) false = false ∧
    depthLimitNotReached itSharedInit.maxDepth 0 = true ∧
    (Iter.incN mpShared 9 (Iter.visit mpShared itSharedInit none 0)).finished = true ∧
    (∃ ks : List Nat, ks.Pairwise (· < ·) ∧
      List.Forall₂ (fun (k e : Nat) =>
        ∃ n : CallGraphNode,
          (runTrace mpShared 9 (Iter.visit mpShared itSharedInit none 0)).get? k =
            some (mpShared.getTarget e, n) ∧
          n.depth = (0 : Int) + 1 ∧ n.frame = mpShared.toFrame e)
        ks ((mpShared.getFilteredOutEdges (visitVertex mpShared none)).reverse)) :=
  ⟨rfl, by decide, rfl, by decide,
    stack_lifo_reverse_sibling_order mpShared itSharedInit none 0 9 rfl (by decide)
      rfl (by decide)⟩

theorem visit_depthinv (mp : Metaprogram) (it : Iter) (e : Option Nat) (k d : Int)
    (hmd : it.maxDepth = some d) (hk : k ≤ d) (hto : ∀ p ∈ it.toVisit, p.2 ≤ d) :
    DepthInv d (Iter.visit mp it e k) := by
  refine ⟨by rw [visit_maxDepth]; exact hmd, ?_, ?_⟩
  · intro _
    rw [visit_current]
    refine ⟨hk, ?_⟩
    intro hkd
    have hkd2 : k = d := hkd
    show newChildCount mp it e k = 0
    unfold newChildCount
    rw [if_pos (Or.inr (by rw [hmd]; simp [depthLimitReached, hkd2]))]
  · intro p hp
    rcases visit_toVisit_mem _ _ _ _ p hp with h | ⟨e2, rfl, _, hdep⟩
    · exact hto p h
    · rw [hmd] at hdep
      simp [depthLimitNotReached] at hdep
      show k + 1 ≤ d
      omega

theorem inc_depthinv (mp : Metaprogram) (it : Iter) (d : Int) (h : DepthInv d it) :
    DepthInv d (Iter.inc mp it) := by
  rcases ht : it.toVisit with _ | ⟨⟨oe, dep⟩, rest⟩
  · rw [inc_nil mp it ht]
    exact ⟨h.1, by intro hf; simp at hf, fun p hp => h.2.2 p hp⟩
  · rw [inc_cons mp it oe dep rest ht]
    apply visit_depthinv
    · exact h.1
    · exact h.2.2 (oe, dep) (by rw [ht]; exact List.mem_cons_self _ _)
    · intro p hp
      exact h.2.2 p (by rw [ht]; exact List.mem_cons_of_mem _ hp)

theorem start_depthinv (mp : Metaprogram) (d : Int) (hd : 0 ≤ d) :
    DepthInv d (Iter.start mp (some d)) := by
  unfold Iter.start
  apply visit_depthinv
  · rfl
  · exact hd
  · intro p hp
    simp at hp

theorem run_depth_bound (mp : Metaprogram) (d : Int) :
    ∀ (fuel : Nat) (it : Iter), DepthInv d it →
      ∀ p ∈ runTrace mp fuel it,
        p.2.depth ≤ d ∧ (p.2.depth = d → p.2.numberOfChildren = 0) := by
  intro fuel
  induction fuel with
  | zero =>
    intro it _ p hp
    simp [runTrace] at hp
  | succ fuel ih =>
    intro it hinv p hp
    rw [runTrace_succ] at hp
    by_cases hf : it.finished = true
    · rw [if_pos hf] at hp
      simp at hp
    · have hf2 : it.finished = false := by simpa using hf
      rw [if_neg hf] at hp
      rcases List.mem_cons.1 hp with rfl | hp2
      · exact hinv.2.1 hf2
      · exact ih (Iter.inc mp it) (inc_depthinv mp it d hinv) p hp2

/-- C4 (amended): for every forward-trace iterator constructed with a
NON-NEGATIVE maximum depth `d`, no projected node yielded over the whole
iteration has depth greater than `d`, and every projected node at depth
exactly `d` reports child count 0 regardless of the underlying vertex's
enabled out-degree. -/
theorem depth_ceiling_amended (mp : Metaprogram) (d : Int) (hd : 0 ≤ d) (fuel : Nat)
    (p : Nat × CallGraphNode) (hp : p ∈ runTrace mp fuel (Iter.start mp (some d))) :
    p.2.depth ≤ d ∧ (p.2.depth = d → p.2.numberOfChildren = 0) :=
  run_depth_bound mp d fuel (Iter.start mp (some d)) (start_depthinv mp d hd) p hp

theorem depth_ceiling_amended_witness :
    (0 : Int) ≤ 1 ∧
    ((1 : Nat), ({ frame := 301, depth := 1, numberOfChildren := 0 } : CallGraphNode)) ∈
      runTrace mpChain 5 (Iter.start mpChain (some 1)) ∧
    (((1 : Nat), ({ frame := 301, depth := 1, numberOfChildren := 0 } :
        CallGraphNode)).2.depth ≤ 1 ∧
      (((1 : Nat), ({ frame := 301, depth := 1, numberOfChildren := 0 } :
        CallGraphNode)).2.depth = 1 →
        ((1 : Nat), ({ frame := 301, depth := 1, numberOfChildren := 0 } :
        CallGraphNode)).2.numberOfChildren = 0)) :=
  ⟨by decide, by decide, depth_ceiling_amended mpChain 1 (by decide) 5 _ (by decide)⟩

/-- C4 counterexample: the maximum depth is a signed integer, and an
iterator constructed with maximum depth −1 yields a projected node of
depth 0 > −1, refuting the claim as stated (its universal quantification
over every constructed iterator includes negative depths). -/
theorem depth_ceiling_counterexample :
    ((0 : Nat), ({ frame := 300, depth := 0, numberOfChildren := 0 } : CallGraphNode)) ∈
      runTrace mpChain 5 (Iter.start mpChain (some (-1))) ∧
    (-1 : Int) <
      ({ frame := 300, depth := 0, numberOfChildren := 0 } : CallGraphNode).depth := by
  exact ⟨by decide, by decide⟩

theorem sum_map_const {α : Type} (l : List α) (c : Nat) :
    (l.map (fun _ => c)).sum = l.length * c := by
  induction l with
  | nil => simp
  | cons a t ih => simp [ih, Nat.succ_mul, Nat.add_comm]

theorem filtered_length_le (mp : Metaprogram) (v : Nat) :
    (mp.getFilteredOutEdges v).length ≤ mp.edges.length := by
  unfold Metaprogram.getFilteredOutEdges
  calc (List.filter _ (List.range mp.edges.length)).length
      ≤ (List.range mp.edges.length).length := List.length_filter_le _ _
    _ = mp.edges.length := List.length_range _

theorem count_false_set (l : List Bool) (v : Nat) (hv : v < l.length)
    (h : l.getD v false = false) :
    (l.set v true).count false + 1 = l.count false := by
  induction l generalizing v with
  | nil => simp at hv
  | cons b t ih =>
    cases v with
    | zero =>
      have hb : b = false := by simpa using h
      subst hb
      simp [List.count_cons]
    | succ v =>
      have := ih v (by simpa using hv) (by simpa using h)
      simp only [List.set_cons_succ, List.count_cons]
      omega

theorem visit_discovered_set (mp : Metaprogram) (it : Iter) (e : Option Nat) (d : Int)
    (hd : it.discovered.getD (visitVertex mp e) false = false)
    (hmode : mp.mode ≠ Mode.full) :
    (Iter.visit mp it e d).discovered = it.discovered.set (visitVertex mp e) true := by
  unfold Iter.visit
  rw [if_neg (by rw [hd]; simp)]
  dsimp only
  rw [if_pos hmode]

theorem exists_finish (mp : Metaprogram) (M : Iter → Nat) (P : Iter → Prop)
    (hstep : ∀ it, P it → it.finished = false →
      (Iter.inc mp it).finished = true ∨
        (P (Iter.inc mp it) ∧ M (Iter.inc mp it) < M it)) :
    ∀ (n : Nat) (it : Iter), P it → M it ≤ n →
      ∃ k, (Iter.incN mp k it).finished = true := by
  intro n
  induction n with
  | zero =>
    intro it hP hM
    by_cases hf : it.finished = true
    · exact ⟨0, hf⟩
    · have hf2 : it.finished = false := by simpa using hf
      rcases hstep it hP hf2 with h | ⟨_, hlt⟩
      · exact ⟨1, h⟩
      · omega
  | succ n ih =>
    intro it hP hM
    by_cases hf : it.finished = true
    · exact ⟨0, hf⟩
    · have hf2 : it.finished = false := by simpa using hf
      rcases hstep it hP hf2 with h | ⟨hP2, hlt⟩
      · exact ⟨1, h⟩
      · obtain ⟨k, hk⟩ := ih (Iter.inc mp it) hP2 (by omega)
        exact ⟨k + 1, hk⟩

theorem muMin_dec (mp : Metaprogram) (it : Iter) (hWF : mp.WF)
    (hmode : mp.mode = Mode.minimized) (hinv : IterInvMin mp it)
    (_hf : it.finished = false) :
    (Iter.inc mp it).finished = true ∨
      (IterInvMin mp (Iter.inc mp it) ∧ muMin mp (Iter.inc mp it) < muMin mp it) := by
  rcases ht : it.toVisit with _ | ⟨⟨oe, dep⟩, rest⟩
  · left
    rw [inc_nil mp it ht]
  · right
    refine ⟨inc_inv_min mp it hWF hmode hinv, ?_⟩
    rw [inc_cons mp it oe dep rest ht]
    by_cases hd : it.discovered.getD (visitVertex mp oe) false = true
    · have h1 := visit_of_discovered mp { it with toVisit := rest } oe dep hd
      unfold muMin
      rw [h1.1, h1.2, ht]
      dsimp only
      simp only [List.length_cons]
      exact Nat.add_lt_add_left (Nat.lt_succ_self _) _
    · have hdf : it.discovered.getD (visitVertex mp oe) false = false := by simpa using hd
      obtain ⟨e, hoe, he⟩ := hinv.2.1 (oe, dep) (by rw [ht]; exact List.mem_cons_self _ _)
      have hoe2 : oe = some e := hoe
      have hlen : visitVertex mp oe < it.discovered.length := by
        rw [hinv.1]
        refine visitVertex_lt mp hWF oe ?_
        intro x hx
        rw [hoe2] at hx
        simp at hx
        rw [hx]
        exact he
      have hset := visit_discovered_set mp { it with toVisit := rest } oe dep hdf
        (minimized_ne_full mp hmode)
      have hcount := count_false_set it.discovered (visitVertex mp oe) hlen hdf
      have hlen2 : (Iter.visit mp { it with toVisit := rest } oe dep).toVisit.length ≤
          mp.edges.length + rest.length := by
        by_cases hdep : depthLimitNotReached it.maxDepth dep = true
        · rw [visit_toVisit_expand mp { it with toVisit := rest } oe dep hdf hdep]
          dsimp only
          simp only [List.length_append, List.length_reverse, List.length_map]
          have := filtered_length_le mp (visitVertex mp oe)
          omega
        · rw [visit_toVisit_nopush mp { it with toVisit := rest } oe dep (by simpa using hdep)]
          dsimp only
          omega
      unfold muMin
      rw [hset, ht]
      simp only [List.length_cons]
      rw [← hcount, Nat.succ_mul]
      omega

theorem muDepth_dec (mp : Metaprogram) (d : Int) (it : Iter)
    (hmd : it.maxDepth = some d) (_hf : it.finished = false) :
    (Iter.inc mp it).finished = true ∨
      ((Iter.inc mp it).maxDepth = some d ∧
        muDepth mp d (Iter.inc mp it) < muDepth mp d it) := by
  rcases ht : it.toVisit with _ | ⟨⟨oe, dep⟩, rest⟩
  · left
    rw [inc_nil mp it ht]
  · right
    rw [inc_cons mp it oe dep rest ht]
    refine ⟨by rw [visit_maxDepth]; exact hmd, ?_⟩
    unfold muDepth
    rw [ht]
    simp only [List.map_cons, List.sum_cons]
    have hX : 0 < (mp.edges.length + 1) ^ (d - dep).toNat := pow_pos (Nat.succ_pos _) _
    by_cases hd2 : it.discovered.getD (visitVertex mp oe) false = true
    · rw [(visit_of_discovered mp { it with toVisit := rest } oe dep hd2).1]
      dsimp only
      omega
    · have hdf : it.discovered.getD (visitVertex mp oe) false = false := by simpa using hd2
      by_cases hdep : depthLimitNotReached it.maxDepth dep = true
      · have hlt : dep < d := by
          rw [hmd] at hdep
          simpa [depthLimitNotReached] using hdep
        rw [visit_toVisit_expand mp { it with toVisit := rest } oe dep hdf hdep]
        dsimp only
        rw [List.map_append, List.sum_append, List.map_reverse, List.sum_reverse,
          List.map_map]
        simp only [Function.comp_def]
        rw [sum_map_const]
        have ha : (d - (dep + 1)).toNat = (d - dep).toNat - 1 := by omega
        rw [ha]
        have hpow : (mp.edges.length + 1) ^ (d - dep).toNat =
            (mp.edges.length + 1) ^ ((d - dep).toNat - 1) * (mp.edges.length + 1) := by
          conv_lhs => rw [show (d - dep).toNat = ((d - dep).toNat - 1) + 1 by omega]
          rw [pow_succ]
        rw [hpow]
        have hle : (mp.getFilteredOutEdges (visitVertex mp oe)).length ≤ mp.edges.length :=
          filtered_length_le mp _
        have h1 : (mp.getFilteredOutEdges (visitVertex mp oe)).length *
            ((mp.edges.length + 1) ^ ((d - dep).toNat - 1)) ≤
            mp.edges.length * ((mp.edges.length + 1) ^ ((d - dep).toNat - 1)) :=
          Nat.mul_le_mul_right _ hle
        have h2 : (mp.edges.length + 1) ^ ((d - dep).toNat - 1) * (mp.edges.length + 1) =
            mp.edges.length * ((mp.edges.length + 1) ^ ((d - dep).toNat - 1)) +
              (mp.edges.length + 1) ^ ((d - dep).toNat - 1) := by
          rw [Nat.mul_comm, Nat.succ_mul]
        have hX2 : 0 < (mp.edges.length + 1) ^ ((d - dep).toNat - 1) :=
          pow_pos (Nat.succ_pos _) _
        omega
      · rw [visit_toVisit_nopush mp { it with toVisit := rest } oe dep (by simpa using hdep)]
        dsimp only
        omega

/-- C9: a forward-trace iteration reaches the finished state after
finitely many `operator++` calls whenever a maximum depth is set or the
(well-formed, finite) graph's mode is minimized: with a depth ceiling the
pending stack only receives entries of bounded depth, and in minimized
mode each vertex's out-edges are pushed at most once. -/
theorem iteration_terminates (mp : Metaprogram) (md : Option Int) (hWF : mp.WF)
    (h : (∃ d, md = some d) ∨ mp.mode = Mode.minimized) :
    ∃ k, (Iter.incN mp k (Iter.start mp md)).finished = true := by
  rcases h with ⟨d, rfl⟩ | hmode
  · exact exists_finish mp (muDepth mp d) (fun it => it.maxDepth = some d)
      (fun it hP hf => muDepth_dec mp d it hP hf)
      (muDepth mp d (Iter.start mp (some d))) (Iter.start mp (some d))
      (start_maxDepth mp (some d)) (le_refl _)
  · exact exists_finish mp (muMin mp) (IterInvMin mp)
      (fun it hP hf => muMin_dec mp it hWF hmode hP hf)
      (muMin mp (Iter.start mp md)) (Iter.start mp md)
      (start_inv mp md hWF hmode) (le_refl _)

theorem iteration_terminates_witness :
    mpShared.WF ∧
    ∃ k, (Iter.incN mpShared k (Iter.start mpShared none)).finished = true :=
  ⟨by decide, iteration_terminates mpShared none (by decide) (Or.inr rfl)⟩

theorem filtered_rank (mp : Metaprogram) (r : Nat → Nat) (B : Nat)
    (hrank : TopoRank mp r B) (v e : Nat) (he : e ∈ mp.getFilteredOutEdges v) :
    r v < r (mp.getTarget e) := by
  obtain ⟨hlt, hsrc, hen⟩ := (mem_filtered mp v e).1 he
  have h2 := hrank.2 e hlt hen
  rw [hsrc] at h2
  exact h2

theorem subtree_stable (mp : Metaprogram) (r : Nat → Nat) (B : Nat)
    (hrank : TopoRank mp r B) :
    ∀ (f1 f2 v : Nat), B + 1 - r v ≤ f1 → B + 1 - r v ≤ f2 →
      subtreeCount mp f1 v = subtreeCount mp f2 v := by
  intro f1
  induction f1 with
  | zero =>
    intro f2 v h1 _
    have := hrank.1 v
    omega
  | succ f1 ih =>
    intro f2 v h1 h2
    cases f2 with
    | zero =>
      have := hrank.1 v
      omega
    | succ f2 =>
      show 1 + ((mp.getFilteredOutEdges v).map
          (fun e => subtreeCount mp f1 (mp.getTarget e))).sum =
        1 + ((mp.getFilteredOutEdges v).map
          (fun e => subtreeCount mp f2 (mp.getTarget e))).sum
      have hmaps : (mp.getFilteredOutEdges v).map
          (fun e => subtreeCount mp f1 (mp.getTarget e)) =
          (mp.getFilteredOutEdges v).map
            (fun e => subtreeCount mp f2 (mp.getTarget e)) := by
        apply List.map_congr_left
        intro e he
        have hr := filtered_rank mp r B hrank v e he
        have hb := hrank.1 (mp.getTarget e)
        exact ih f2 (mp.getTarget e) (by omega) (by omega)
      rw [hmaps]

theorem subtree_expand (mp : Metaprogram) (r : Nat → Nat) (B : Nat)
    (hrank : TopoRank mp r B) (v : Nat) :
    subtreeCount mp (B + 1) v =
      1 + ((mp.getFilteredOutEdges v).map
        (fun e => subtreeCount mp (B + 1) (mp.getTarget e))).sum := by
  show 1 + ((mp.getFilteredOutEdges v).map
      (fun e => subtreeCount mp B (mp.getTarget e))).sum = _
  have hmaps : (mp.getFilteredOutEdges v).map
      (fun e => subtreeCount mp B (mp.getTarget e)) =
      (mp.getFilteredOutEdges v).map
        (fun e => subtreeCount mp (B + 1) (mp.getTarget e)) := by
    apply List.map_congr_left
    intro e he
    have hr := filtered_rank mp r B hrank v e he
    exact subtree_stable mp r B hrank B (B + 1) (mp.getTarget e) (by omega) (by omega)
  rw [hmaps]

theorem stackMeasure_nil (mp : Metaprogram) (F : Nat) : stackMeasure mp F [] = 0 := rfl

theorem stackMeasure_cons (mp : Metaprogram) (F : Nat) (p : Option Nat × Int)
    (S : List (Option Nat × Int)) :
    stackMeasure mp F (p :: S) = entryWeight mp F p + stackMeasure mp F S := by
  simp [stackMeasure]

theorem stackMeasure_append (mp : Metaprogram) (F : Nat)
    (a b : List (Option Nat × Int)) :
    stackMeasure mp F (a ++ b) = stackMeasure mp F a + stackMeasure mp F b := by
  simp [stackMeasure]

theorem stackMeasure_reverse (mp : Metaprogram) (F : Nat)
    (l : List (Option Nat × Int)) :
    stackMeasure mp F l.reverse = stackMeasure mp F l := by
  simp [stackMeasure, List.map_reverse, List.sum_reverse]

theorem stackMeasure_pushed (mp : Metaprogram) (F : Nat) (children : List Nat) (d : Int) :
    stackMeasure mp F (children.map (fun e2 => ((some e2 : Option Nat), d))) =
      (children.map (fun e => subtreeCount mp F (mp.getTarget e))).sum := by
  simp [stackMeasure, List.map_map, Function.comp_def, entryWeight, visitVertex]

theorem visit_fullctx (mp : Metaprogram) (it : Iter) (e : Option Nat) (d : Int)
    (h : FullCtx mp it) : FullCtx mp (Iter.visit mp it e d) := by
  refine ⟨by rw [visit_maxDepth]; exact h.1, h.2.1, ?_⟩
  intro v
  rw [visit_discovered_full mp it e d h.2.1]
  exact h.2.2 v

theorem inc_fullctx (mp : Metaprogram) (it : Iter) (h : FullCtx mp it) :
    FullCtx mp (Iter.inc mp it) := by
  rcases ht : it.toVisit with _ | ⟨⟨oe, dep⟩, rest⟩
  · rw [inc_nil mp it ht]
    exact ⟨h.1, h.2.1, h.2.2⟩
  · rw [inc_cons mp it oe dep rest ht]
    exact visit_fullctx mp { it with toVisit := rest } oe dep ⟨h.1, h.2.1, h.2.2⟩

theorem fullMeasure_step (mp : Metaprogram) (r : Nat → Nat) (B : Nat)
    (hrank : TopoRank mp r B) (it : Iter) (h : FullCtx mp it)
    (hf : it.finished = false) :
    fullMeasure mp (B + 1) it = 1 + fullMeasure mp (B + 1) (Iter.inc mp it) := by
  rcases ht : it.toVisit with _ | ⟨⟨oe, dep⟩, rest⟩
  · rw [inc_nil mp it ht]
    unfold fullMeasure
    rw [if_neg (by rw [hf]; simp), if_pos rfl, ht, stackMeasure_nil]
  · rw [inc_cons mp it oe dep rest ht]
    unfold fullMeasure
    rw [if_neg (by rw [hf]; simp),
      if_neg (by rw [visit_finished]; show ¬(it.finished = true); rw [hf]; simp), ht]
    have hdf : it.discovered.getD (visitVertex mp oe) false = false := h.2.2 _
    have hdep : depthLimitNotReached it.maxDepth dep = true := by
      rw [h.1]
      rfl
    rw [visit_toVisit_expand mp { it with toVisit := rest } oe dep hdf hdep]
    rw [stackMeasure_append, stackMeasure_reverse, stackMeasure_pushed,
      stackMeasure_cons]
    show 1 + (entryWeight mp (B + 1) (oe, dep) + stackMeasure mp (B + 1) rest) = _
    rw [show entryWeight mp (B + 1) (oe, dep) =
      subtreeCount mp (B + 1) (visitVertex mp oe) from rfl]
    rw [subtree_expand mp r B hrank (visitVertex mp oe)]
    show _ = 1 + (1 + (_ + stackMeasure mp (B + 1) rest))
    omega

theorem run_length_full (mp : Metaprogram) (r : Nat → Nat) (B : Nat)
    (hrank : TopoRank mp r B) :
    ∀ (fuel : Nat) (it : Iter), FullCtx mp it →
      fullMeasure mp (B + 1) it ≤ fuel →
      (runTrace mp fuel it).length = fullMeasure mp (B + 1) it := by
  intro fuel
  induction fuel with
  | zero =>
    intro it _ hM
    simp [runTrace]
    omega
  | succ fuel ih =>
    intro it hctx hM
    by_cases hf : it.finished = true
    · rw [runTrace_succ, if_pos hf]
      unfold fullMeasure
      rw [if_pos hf]
      rfl
    · have hf2 : it.finished = false := by simpa using hf
      rw [runTrace_succ, if_neg hf]
      simp only [List.length_cons]
      have hstep := fullMeasure_step mp r B hrank it hctx hf2
      rw [ih (Iter.inc mp it) (inc_fullctx mp it hctx) (by omega)]
      omega

theorem start_fullctx (mp : Metaprogram) (hmode : mp.mode = Mode.full)
    (hdisc : ∀ v, mp.stateDiscovered.getD v false = false) :
    FullCtx mp (Iter.start mp none) := by
  unfold Iter.start
  exact visit_fullctx mp _ _ _ ⟨rfl, hmode, hdisc⟩

theorem start_fullMeasure (mp : Metaprogram) (r : Nat → Nat) (B : Nat)
    (hrank : TopoRank mp r B)
    (hdisc : ∀ v, mp.stateDiscovered.getD v false = false)
    (hcur : mp.currentEdge = none) :
    fullMeasure mp (B + 1) (Iter.start mp none) =
      subtreeCount mp (B + 1) mp.rootVertex := by
  unfold Iter.start
  rw [hcur]
  unfold fullMeasure
  rw [if_neg (by rw [visit_finished]; simp)]
  rw [visit_toVisit_expand mp
    { finished := false, maxDepth := none, discovered := mp.stateDiscovered,
      toVisit := [], current := { frame := 0, depth := 0, numberOfChildren := 0 },
      curVertex := 0 } none 0 (hdisc _) rfl]
  rw [stackMeasure_append, stackMeasure_reverse, stackMeasure_pushed,
    stackMeasure_nil]
  rw [show visitVertex mp none = mp.rootVertex from rfl]
  rw [subtree_expand mp r B hrank mp.rootVertex]
  omega

theorem pathsFrom_length (mp : Metaprogram) :
    ∀ (f v : Nat), (pathsFrom mp f v).length = subtreeCount mp f v := by
  intro f
  induction f with
  | zero => intro v; rfl
  | succ f ih =>
    intro v
    show (([] : List Nat) :: _).length = 1 + _
    rw [List.length_cons, List.length_flatten, List.map_map]
    have hmaps : (mp.getFilteredOutEdges v).map
        (List.length ∘ fun e => (pathsFrom mp f (mp.getTarget e)).map (fun p => e :: p)) =
        (mp.getFilteredOutEdges v).map
          (fun e => subtreeCount mp f (mp.getTarget e)) := by
      apply List.map_congr_left
      intro e _
      show ((pathsFrom mp f (mp.getTarget e)).map (fun p => e :: p)).length = _
      rw [List.length_map]
      exact ih (mp.getTarget e)
    rw [hmaps]
    omega

theorem pathsFrom_sound (mp : Metaprogram) :
    ∀ (f v : Nat) (p : List Nat), p ∈ pathsFrom mp f v → IsPathFrom mp v p := by
  intro f
  induction f with
  | zero =>
    intro v p hp
    simp [pathsFrom] at hp
  | succ f ih =>
    intro v p hp
    rcases List.mem_cons.1 hp with rfl | hp2
    · trivial
    · obtain ⟨l, hl, hpl⟩ := List.mem_flatten.1 hp2
      obtain ⟨e, he, rfl⟩ := List.mem_map.1 hl
      obtain ⟨q, hq, rfl⟩ := List.mem_map.1 hpl
      exact ⟨he, ih (mp.getTarget e) q hq⟩

theorem pathsFrom_complete (mp : Metaprogram) (r : Nat → Nat) (B : Nat)
    (hrank : TopoRank mp r B) :
    ∀ (p : List Nat) (v f : Nat), IsPathFrom mp v p → B + 1 - r v ≤ f →
      p ∈ pathsFrom mp f v := by
  intro p
  induction p with
  | nil =>
    intro v f _ hf
    have := hrank.1 v
    obtain ⟨f2, rfl⟩ : ∃ f2, f = f2 + 1 := ⟨f - 1, by omega⟩
    exact List.mem_cons_self _ _
  | cons e q ih =>
    intro v f hp hf
    obtain ⟨he, hq⟩ := hp
    have hr := filtered_rank mp r B hrank v e he
    have hb := hrank.1 (mp.getTarget e)
    have := hrank.1 v
    obtain ⟨f2, rfl⟩ : ∃ f2, f = f2 + 1 := ⟨f - 1, by omega⟩
    apply List.mem_cons_of_mem
    apply List.mem_flatten.2
    refine ⟨(pathsFrom mp f2 (mp.getTarget e)).map (fun p2 => e :: p2), ?_, ?_⟩
    · exact List.mem_map_of_mem _ he
    · exact List.mem_map_of_mem _ (ih (mp.getTarget e) f2 hq (by omega))

theorem pathsFrom_nodup (mp : Metaprogram) :
    ∀ (f v : Nat), (pathsFrom mp f v).Nodup := by
  intro f
  induction f with
  | zero =>
    intro v
    simp [pathsFrom]
  | succ f ih =>
    intro v
    show (([] : List Nat) :: _).Nodup
    rw [List.nodup_cons]
    constructor
    · intro hmem
      obtain ⟨l, hl, hpl⟩ := List.mem_flatten.1 hmem
      obtain ⟨e, he, rfl⟩ := List.mem_map.1 hl
      obtain ⟨q, hq, habs⟩ := List.mem_map.1 hpl
      exact List.cons_ne_nil e q habs
    · rw [List.nodup_flatten]
      constructor
      · intro l hl
        obtain ⟨e, he, rfl⟩ := List.mem_map.1 hl
        exact List.Nodup.map (fun a b h => by simpa using h) (ih (mp.getTarget e))
      · rw [List.pairwise_map]
        have hnd : (mp.getFilteredOutEdges v).Nodup :=
          List.Nodup.filter _ (List.nodup_range _)
        refine List.Pairwise.imp ?_ hnd
        intro a b hab
        rw [List.disjoint_left]
        intro x hx1 hx2
        obtain ⟨q1, _, rfl⟩ := List.mem_map.1 hx1
        obtain ⟨q2, _, heq⟩ := List.mem_map.1 hx2
        injection heq with h1 _
        exact hab h1.symm

/-- C3: in full mode with no depth ceiling, iterating over an acyclic
finite graph (acyclicity witnessed by a topological rank `r` bounded by
`B` on the enabled edges), with no pre-existing discovered marks (a
full-mode builder never sets any) and iteration starting at the root, the
total number of projected nodes equals the number of distinct
root-to-vertex paths: `pathsFrom` enumerates exactly the root-to-vertex
paths (sound, complete, duplicate-free), and the trace length equals its
length — every shared vertex is re-expanded on every path reaching it. -/
theorem full_mode_counts_root_paths (mp : Metaprogram) (r : Nat → Nat) (B : Nat)
    (fuel : Nat) (hmode : mp.mode = Mode.full)
    (hdisc : ∀ v, mp.stateDiscovered.getD v false = false)
    (hcur : mp.currentEdge = none) (hrank : TopoRank mp r B)
    (hfuel : (pathsFrom mp (B + 1) mp.rootVertex).length ≤ fuel) :
    (runTrace mp fuel (Iter.start mp none)).length =
      (pathsFrom mp (B + 1) mp.rootVertex).length ∧
    (∀ p ∈ pathsFrom mp (B + 1) mp.rootVertex, IsPathFrom mp mp.rootVertex p) ∧
    (∀ p, IsPathFrom mp mp.rootVertex p → p ∈ pathsFrom mp (B + 1) mp.rootVertex) ∧
    (pathsFrom mp (B + 1) mp.rootVertex).Nodup := by
  refine ⟨?_, fun p hp => pathsFrom_sound mp (B + 1) mp.rootVertex p hp,
    fun p hp => pathsFrom_complete mp r B hrank p mp.rootVertex (B + 1) hp
      (by have := hrank.1 mp.rootVertex; omega),
    pathsFrom_nodup mp (B + 1) mp.rootVertex⟩
  have h1 := start_fullMeasure mp r B hrank hdisc hcur
  have h2 := run_length_full mp r B hrank fuel (Iter.start mp none)
    (start_fullctx mp hmode hdisc)
    (by rw [h1, ← pathsFrom_length mp (B + 1) mp.rootVertex]; exact hfuel)
  rw [h2, h1, ← pathsFrom_length mp (B + 1) mp.rootVertex]

theorem full_mode_counts_root_paths_witness :
    mpDiamond.mode = Mode.full ∧
    (∀ v, mpDiamond.stateDiscovered.getD v false = false) ∧
    mpDiamond.currentEdge = none ∧
    TopoRank mpDiamond rankDiamond 2 ∧
    (pathsFrom mpDiamond 3 mpDiamond.rootVertex).length ≤ 10 ∧
    ((runTrace mpDiamond 10 (Iter.start mpDiamond none)).length =
        (pathsFrom mpDiamond 3 mpDiamond.rootVertex).length ∧
      (∀ p ∈ pathsFrom mpDiamond 3 mpDiamond.rootVertex,
        IsPathFrom mpDiamond mpDiamond.rootVertex p) ∧
      (∀ p, IsPathFrom mpDiamond mpDiamond.rootVertex p →
        p ∈ pathsFrom mpDiamond 3 mpDiamond.rootVertex) ∧
      (pathsFrom mpDiamond 3 mpDiamond.rootVertex).Nodup) := by
  have hd : ∀ v, mpDiamond.stateDiscovered.getD v false = false :=
    fun v => getD_false_of_all_false _ (by decide) v
  have hr : TopoRank mpDiamond rankDiamond 2 := by
    constructor
    · intro v
      unfold rankDiamond
      split
      · omega
      · split <;> omega
    · decide
  exact ⟨rfl, hd, rfl, hr, by decide,
    full_mode_counts_root_paths mpDiamond rankDiamond 2 10 rfl hd rfl hr (by decide)⟩

theorem processEvents_append (a b : List TraceEvent) :
    ∀ st, processEvents st (a ++ b) =
      (processEvents st a).bind (fun st2 => processEvents st2 b) := by
  induction a with
  | nil => intro st; rfl
  | cons ev rest ih =>
    intro st
    cases ev with
    | templateBegin n l => exact ih (handleTemplateBegin st n l)
    | templateEnd =>
      show (match handleTemplateEnd st with
        | some st2 => processEvents st2 (rest ++ b)
        | none => none) =
        (match handleTemplateEnd st with
          | some st2 => processEvents st2 rest
          | none => none).bind (fun st2 => processEvents st2 b)
      cases handleTemplateEnd st with
      | none => rfl
      | some st2 => exact ih st2

theorem addVertex_edgeStack (st : BuilderState) (n l : Nat) :
    ((addVertex st n l).1).edgeStack = st.edgeStack := by
  unfold addVertex
  cases lookupKey st.elementVertexMap (n, l) <;> rfl

theorem handleTemplateBegin_edgeStack (st : BuilderState) (n l : Nat) :
    (handleTemplateBegin st n l).edgeStack =
      ((addVertex st n l).1).edges.length :: st.edgeStack := by
  unfold handleTemplateBegin
  dsimp only
  rw [addVertex_edgeStack]

theorem handleTemplateEnd_cons (st : BuilderState) (e : Nat) (rest : List Nat)
    (h : st.edgeStack = e :: rest) :
    handleTemplateEnd st = some { st with edgeStack := rest } := by
  unfold handleTemplateEnd
  rw [h]

theorem handleTemplateEnd_nil (st : BuilderState) (h : st.edgeStack = []) :
    handleTemplateEnd st = none := by
  unfold handleTemplateEnd
  rw [h]

theorem handleEvaluationEnd_nonempty (st : BuilderState) (res : Nat)
    (h : st.edgeStack ≠ []) : handleEvaluationEnd st res = none := by
  unfold handleEvaluationEnd
  cases hs : st.edgeStack with
  | nil => exact absurd hs h
  | cons a t => rfl

theorem processEvents_balanced (evs : List TraceEvent) (hb : Balanced evs) :
    ∀ st, ∃ st2, processEvents st evs = some st2 ∧ st2.edgeStack = st.edgeStack := by
  induction hb with
  | nil => intro st; exact ⟨st, rfl, rfl⟩
  | wrap n l evs hbe ih =>
    intro st
    obtain ⟨stm, hm, hms⟩ := ih (handleTemplateBegin st n l)
    have hstep : processEvents st
        (TraceEvent.templateBegin n l :: evs ++ [TraceEvent.templateEnd]) =
        processEvents (handleTemplateBegin st n l)
          (evs ++ [TraceEvent.templateEnd]) := rfl
    rw [hstep, processEvents_append evs [TraceEvent.templateEnd]
      (handleTemplateBegin st n l), hm]
    have hcons : stm.edgeStack =
        ((addVertex st n l).1).edges.length :: st.edgeStack := by
      rw [hms, handleTemplateBegin_edgeStack]
    refine ⟨{ stm with edgeStack := st.edgeStack }, ?_, rfl⟩
    show (match handleTemplateEnd stm with
      | some st2 => processEvents st2 []
      | none => none) = _
    rw [handleTemplateEnd_cons stm _ _ hcons]
    rfl
  | append a b hba hbb iha ihb =>
    intro st
    obtain ⟨st1, h1, hs1⟩ := iha st
    obtain ⟨st2, h2, hs2⟩ := ihb st1
    refine ⟨st2, ?_, by rw [hs2, hs1]⟩
    rw [processEvents_append a b st, h1]
    exact h2

/-- C7: for every well-formed (balanced) template-step event sequence, the
builder's edge stack returns to its initial state — in particular the
stack of a freshly constructed builder is empty after all events are
processed — while an end-event arriving with an empty edge stack, and
evaluation-end arriving with a non-empty edge stack, each signal a
structural fault (`none`) that abandons the current graph rather than
being silently patched. -/
theorem builder_balanced_stack :
    (∀ (evs : List TraceEvent) (rootNode rootLoc : Nat), Balanced evs →
      ∃ st2, processEvents (initBuilder rootNode rootLoc) evs = some st2 ∧
        st2.edgeStack = []) ∧
    (∀ st : BuilderState, st.edgeStack = [] → handleTemplateEnd st = none) ∧
    (∀ (st : BuilderState) (res : Nat), st.edgeStack ≠ [] →
      handleEvaluationEnd st res = none) := by
  refine ⟨?_, handleTemplateEnd_nil, handleEvaluationEnd_nonempty⟩
  intro evs rn rl hb
  obtain ⟨st2, h, hs⟩ := processEvents_balanced evs hb (initBuilder rn rl)
  exact ⟨st2, h, by rw [hs]; rfl⟩

theorem builder_balanced_stack_witness :
    ∃ st2, processEvents (initBuilder 0 0)
        [TraceEvent.templateBegin 5 1, TraceEvent.templateEnd] = some st2 ∧
      st2.edgeStack = [] :=
  builder_balanced_stack.1 _ 0 0 (Balanced.wrap 5 1 [] Balanced.nil)

theorem lookupKey_none_not_mem (m : List ((Nat × Nat) × Nat)) (k : Nat × Nat)
    (h : lookupKey m k = none) : ∀ v, (k, v) ∉ m := by
  induction m with
  | nil => simp
  | cons kv rest ih =>
    obtain ⟨k2, v2⟩ := kv
    rw [show lookupKey ((k2, v2) :: rest) k =
      if k2 = k then some v2 else lookupKey rest k from rfl] at h
    intro v hv
    by_cases hk : k2 = k
    · rw [if_pos hk] at h
      exact Option.noConfusion h
    · rw [if_neg hk] at h
      rcases List.mem_cons.1 hv with he | hm
      · exact hk (congrArg Prod.fst he).symm
      · exact ih h v hm

theorem lookupKey_some_mem (m : List ((Nat × Nat) × Nat)) (k : Nat × Nat) (v : Nat)
    (h : lookupKey m k = some v) : (k, v) ∈ m := by
  induction m with
  | nil => simp [lookupKey] at h
  | cons kv rest ih =>
    obtain ⟨k2, v2⟩ := kv
    rw [show lookupKey ((k2, v2) :: rest) k =
      if k2 = k then some v2 else lookupKey rest k from rfl] at h
    by_cases hk : k2 = k
    · rw [if_pos hk] at h
      injection h with h2
      subst hk
      subst h2
      exact List.mem_cons_self _ _
    · rw [if_neg hk] at h
      exact List.mem_cons_of_mem _ (ih h)

theorem pairwise_values_ne (m : List ((Nat × Nat) × Nat))
    (hp : m.Pairwise (fun a b => a.1 ≠ b.1 ∧ a.2 ≠ b.2))
    (k1 k2 : Nat × Nat) (v1 v2 : Nat)
    (h1 : (k1, v1) ∈ m) (h2 : (k2, v2) ∈ m) (hk : k1 ≠ k2) : v1 ≠ v2 := by
  induction m with
  | nil => simp at h1
  | cons a rest ih =>
    rcases List.mem_cons.1 h1 with e1 | m1 <;> rcases List.mem_cons.1 h2 with e2 | m2
    · exact absurd (congrArg Prod.fst (e1.trans e2.symm)) hk
    · have hd := (List.pairwise_cons.1 hp).1 _ m2
      rw [← e1] at hd
      exact hd.2
    · have hd := (List.pairwise_cons.1 hp).1 _ m1
      rw [← e2] at hd
      exact (Ne.symm hd.2)
    · exact ih (List.pairwise_cons.1 hp).2 m1 m2

theorem addVertex_lookup_hit (st : BuilderState) (n l v : Nat)
    (h : lookupKey st.elementVertexMap (n, l) = some v) :
    addVertex st n l = (st, v) := by
  unfold addVertex
  rw [h]

theorem addVertex_lookup_miss (st : BuilderState) (n l : Nat)
    (h : lookupKey st.elementVertexMap (n, l) = none) :
    addVertex st n l =
      ({ st with
         vertexCount := st.vertexCount + 1,
         elementVertexMap := ((n, l), st.vertexCount) :: st.elementVertexMap },
       st.vertexCount) := by
  unfold addVertex
  rw [h]

theorem addVertex_self_lookup (st : BuilderState) (n l : Nat) :
    lookupKey ((addVertex st n l).1).elementVertexMap (n, l) =
      some ((addVertex st n l).2) := by
  cases h : lookupKey st.elementVertexMap (n, l) with
  | some v =>
    rw [addVertex_lookup_hit st n l v h]
    exact h
  | none =>
    rw [addVertex_lookup_miss st n l h]
    show (if (n, l) = (n, l) then some st.vertexCount
      else lookupKey st.elementVertexMap (n, l)) = some st.vertexCount
    rw [if_pos rfl]

theorem addVertex_snd_congr (A B : BuilderState) (n l : Nat)
    (hm : A.elementVertexMap = B.elementVertexMap)
    (hc : A.vertexCount = B.vertexCount) :
    (addVertex A n l).2 = (addVertex B n l).2 := by
  unfold addVertex
  rw [hm]
  cases lookupKey B.elementVertexMap (n, l) with
  | some v => rfl
  | none => exact hc

theorem addVertex_inv (st : BuilderState) (n l : Nat) (hinv : BuilderInv st) :
    BuilderInv ((addVertex st n l).1) := by
  cases h : lookupKey st.elementVertexMap (n, l) with
  | some v =>
    rw [addVertex_lookup_hit st n l v h]
    exact hinv
  | none =>
    rw [addVertex_lookup_miss st n l h]
    constructor
    · show (((n, l), st.vertexCount) :: st.elementVertexMap).Pairwise _
      rw [List.pairwise_cons]
      constructor
      · intro kv hkv
        obtain ⟨kk, vv⟩ := kv
        constructor
        · intro heq
          have hk2 : kk = (n, l) := heq.symm
          subst hk2
          exact lookupKey_none_not_mem _ _ h vv hkv
        · have := (hinv.2 vv).2 ⟨kk, hkv⟩
          omega
      · exact hinv.1
    · intro v
      show v < st.vertexCount + 1 ↔ _
      constructor
      · intro hv
        rcases Nat.lt_succ_iff_lt_or_eq.1 hv with h2 | h2
        · obtain ⟨k, hk⟩ := (hinv.2 v).1 h2
          exact ⟨k, List.mem_cons_of_mem _ hk⟩
        · exact ⟨(n, l), by rw [h2]; exact List.mem_cons_self _ _⟩
      · rintro ⟨k, hk⟩
        rcases List.mem_cons.1 hk with he | hm
        · have : v = st.vertexCount := congrArg Prod.snd he
          omega
        · have := (hinv.2 v).2 ⟨k, hm⟩
          omega

theorem addVertex_distinct_loc (st : BuilderState) (n l l2 : Nat)
    (hinv : BuilderInv st) (hne : l ≠ l2) :
    (addVertex ((addVertex st n l).1) n l2).2 ≠ (addVertex st n l).2 := by
  cases h1 : lookupKey st.elementVertexMap (n, l) with
  | some v1 =>
    rw [addVertex_lookup_hit st n l v1 h1]
    cases h2 : lookupKey st.elementVertexMap (n, l2) with
    | some v2 =>
      rw [addVertex_lookup_hit st n l2 v2 h2]
      exact pairwise_values_ne st.elementVertexMap hinv.1 (n, l2) (n, l) v2 v1
        (lookupKey_some_mem _ _ _ h2) (lookupKey_some_mem _ _ _ h1)
        (fun he => hne (congrArg Prod.snd he).symm)
    | none =>
      rw [addVertex_lookup_miss st n l2 h2]
      have := (hinv.2 v1).2 ⟨(n, l), lookupKey_some_mem _ _ _ h1⟩
      show st.vertexCount ≠ v1
      omega
  | none =>
    rw [addVertex_lookup_miss st n l h1]
    have hl2 : lookupKey (((n, l), st.vertexCount) :: st.elementVertexMap) (n, l2) =
        lookupKey st.elementVertexMap (n, l2) := by
      show (if (n, l) = (n, l2) then some st.vertexCount
        else lookupKey st.elementVertexMap (n, l2)) = _
      rw [if_neg (fun he => hne (congrArg Prod.snd he))]
    cases h2 : lookupKey st.elementVertexMap (n, l2) with
    | some v2 =>
      rw [addVertex_lookup_hit _ n l2 v2 (hl2.trans h2)]
      have := (hinv.2 v2).2 ⟨(n, l2), lookupKey_some_mem _ _ _ h2⟩
      show v2 ≠ st.vertexCount
      omega
    | none =>
      rw [addVertex_lookup_miss _ n l2 (hl2.trans h2)]
      show st.vertexCount + 1 ≠ st.vertexCount
      omega

theorem addVertex_vertexCount_hit (st : BuilderState) (n l : Nat)
    (h : lookupKey st.elementVertexMap (n, l) ≠ none) :
    ((addVertex st n l).1).vertexCount = st.vertexCount := by
  cases h2 : lookupKey st.elementVertexMap (n, l) with
  | some v => rw [addVertex_lookup_hit st n l v h2]
  | none => exact absurd h2 h

theorem initBuilder_inv (rn rl : Nat) : BuilderInv (initBuilder rn rl) := by
  constructor
  · simp [initBuilder]
  · intro v
    show v < 1 ↔ _
    constructor
    · intro hv
      have hv0 : v = 0 := by omega
      exact ⟨(rn, rl), by simp [initBuilder, hv0]⟩
    · rintro ⟨k, hk⟩
      simp [initBuilder] at hk
      omega

theorem handleTemplateBegin_inv (st : BuilderState) (n l : Nat)
    (hinv : BuilderInv st) : BuilderInv (handleTemplateBegin st n l) := by
  have h := addVertex_inv st n l hinv
  exact ⟨h.1, h.2⟩

theorem handleTemplateEnd_inv (st st2 : BuilderState)
    (h : handleTemplateEnd st = some st2) (hinv : BuilderInv st) :
    BuilderInv st2 := by
  unfold handleTemplateEnd at h
  cases hs : st.edgeStack with
  | nil =>
    rw [hs] at h
    exact Option.noConfusion h
  | cons a t =>
    rw [hs] at h
    injection h with h2
    rw [← h2]
    exact ⟨hinv.1, hinv.2⟩

theorem handleEvaluationEnd_inv (st st2 : BuilderState) (res : Nat)
    (h : handleEvaluationEnd st res = some st2) (hinv : BuilderInv st) :
    BuilderInv st2 := by
  unfold handleEvaluationEnd at h
  cases hs : st.edgeStack with
  | nil =>
    rw [hs] at h
    injection h with h2
    rw [← h2]
    exact ⟨hinv.1, hinv.2⟩
  | cons a t =>
    rw [hs] at h
    exact Option.noConfusion h

theorem lastEdgeTarget_begin (st : BuilderState) (n l : Nat) :
    lastEdgeTarget (handleTemplateBegin st n l) = (addVertex st n l).2 := by
  unfold handleTemplateBegin lastEdgeTarget
  dsimp only
  rw [List.getLast?_concat]

/-- C1: the builder's element-key-to-vertex map deduplicates template-step
begins: the bijection invariant (no two map entries share a key, no two
share a vertex, and the recorded vertices are exactly the vertex indices
created so far) holds initially and is preserved by every handler; a
second begin carrying the same `(node, source_location)` dedup key creates
no new vertex and its edge targets the same vertex as the first; and a
begin with the same node but a different source location targets a
distinct vertex. -/
theorem builder_dedup_bijection :
    (∀ rootNode rootLoc : Nat, BuilderInv (initBuilder rootNode rootLoc)) ∧
    (∀ (st : BuilderState) (n l : Nat), BuilderInv st →
      BuilderInv (handleTemplateBegin st n l)) ∧
    (∀ st st2 : BuilderState, handleTemplateEnd st = some st2 →
      BuilderInv st → BuilderInv st2) ∧
    (∀ (st st2 : BuilderState) (res : Nat), handleEvaluationEnd st res = some st2 →
      BuilderInv st → BuilderInv st2) ∧
    (∀ (st : BuilderState) (n l : Nat),
      (handleTemplateBegin (handleTemplateBegin st n l) n l).vertexCount =
        (handleTemplateBegin st n l).vertexCount ∧
      lastEdgeTarget (handleTemplateBegin (handleTemplateBegin st n l) n l) =
        lastEdgeTarget (handleTemplateBegin st n l)) ∧
    (∀ (st : BuilderState) (n l l2 : Nat), BuilderInv st → l ≠ l2 →
      lastEdgeTarget (handleTemplateBegin (handleTemplateBegin st n l) n l2) ≠
        lastEdgeTarget (handleTemplateBegin st n l)) := by
  refine ⟨initBuilder_inv, handleTemplateBegin_inv, handleTemplateEnd_inv,
    handleEvaluationEnd_inv, ?_, ?_⟩
  · intro st n l
    have hsl : lookupKey (handleTemplateBegin st n l).elementVertexMap (n, l) =
        some ((addVertex st n l).2) := addVertex_self_lookup st n l
    constructor
    · show ((addVertex (handleTemplateBegin st n l) n l).1).vertexCount = _
      rw [addVertex_lookup_hit _ n l _ hsl]
    · rw [lastEdgeTarget_begin, lastEdgeTarget_begin,
        addVertex_lookup_hit _ n l _ hsl]
  · intro st n l l2 hinv hne
    rw [lastEdgeTarget_begin, lastEdgeTarget_begin]
    have hcongr : (addVertex (handleTemplateBegin st n l) n l2).2 =
        (addVertex ((addVertex st n l).1) n l2).2 :=
      addVertex_snd_congr _ _ n l2 rfl rfl
    rw [hcongr]
    exact addVertex_distinct_loc st n l l2 hinv hne

theorem builder_dedup_bijection_witness :
    BuilderInv (initBuilder 0 0) ∧ (1 : Nat) ≠ 2 ∧
    lastEdgeTarget (handleTemplateBegin (handleTemplateBegin (initBuilder 0 0) 5 1) 5 2) ≠
      lastEdgeTarget (handleTemplateBegin (initBuilder 0 0) 5 1) :=
  ⟨builder_dedup_bijection.1 0 0, by decide,
    builder_dedup_bijection.2.2.2.2.2 (initBuilder 0 0) 5 1 2
      (builder_dedup_bijection.1 0 0) (by decide)⟩

end Metashell
